import Mathlib

set_option maxHeartbeats 1600000

/-!
Shallow embedding of the VAMS constraint-template import engine
(`backend/handlers/auth/authConstraintsTemplateService.py` and the request
models in `backend/models/roleConstraints.py`).

Python strings are modeled as `List Char`; `str.replace` and the
`\{\{(\w+)\}\}` regex scan are embedded character by character; dictionaries
that the code iterates in insertion order are modeled as association lists
in that order.  DynamoDB writes are modeled as an accumulating list of
denormalized items, with one all-or-nothing batch per constraint, and the
per-batch success controlled by an oracle `writeOk : Nat → Bool`.  UUID
generation and timestamps are supplied as parameters.
-/

namespace VamsTemplateImport

/-- Python strings, modeled as lists of characters. -/
abbrev PyStr := List Char

/-- The left curly-brace character. -/
def lb : Char := '\x7b'

/-- The right curly-brace character. -/
def rb : Char := '\x7d'

/-- Word-character class of the pattern `\{\{(\w+)\}\}` (ASCII approximation
of Python `\w`: letters, digits, underscore). -/
def isWordChar (c : Char) : Bool := c.isAlphanum || c = '_'

/-- The literal placeholder text `{{n}}` for a variable name `n`
(source line 86 builds the same literal). -/
def varPat (n : PyStr) : PyStr := lb :: lb :: (n ++ [rb, rb])

/-- A string with no brace characters. -/
def braceFree (s : PyStr) : Prop := ∀ c ∈ s, c ≠ lb ∧ c ≠ rb

instance (s : PyStr) : Decidable (braceFree s) :=
  inferInstanceAs (Decidable (∀ c ∈ s, c ≠ lb ∧ c ≠ rb))

/-- A nonempty string of word characters (a legal variable name). -/
def wordName (n : PyStr) : Prop := n ≠ [] ∧ ∀ c ∈ n, isWordChar c

instance (n : PyStr) : Decidable (wordName n) :=
  inferInstanceAs (Decidable (n ≠ [] ∧ ∀ c ∈ n, isWordChar c))

/-- Contiguous-substring relation: `t` occurs somewhere inside `s`. -/
def SubStr (t s : PyStr) : Prop := ∃ x y, s = x ++ (t ++ y)

/-- Boolean contiguous-substring test. -/
def hasSub (t : PyStr) : PyStr → Bool
  | [] => decide (t = [])
  | c :: cs => t.isPrefixOf (c :: cs) || hasSub t cs

/-- Python `s.replace("", rep)`: the replacement is inserted before every
character and at the end. -/
def pyReplaceEmptyPat (rep : PyStr) : PyStr → PyStr
  | [] => rep
  | c :: cs => rep ++ c :: pyReplaceEmptyPat rep cs

/-- Fueled left-to-right non-overlapping replacement of a nonempty pattern,
the semantics of Python `str.replace`.  The fuel is structural so that the
function evaluates by kernel reduction; `pyReplace` supplies enough fuel. -/
def pyReplaceF (pat rep : PyStr) : Nat → PyStr → PyStr
  | _, [] => []
  | 0, s => s
  | fuel + 1, c :: cs =>
    if pat.isPrefixOf (c :: cs) then
      rep ++ pyReplaceF pat rep fuel ((c :: cs).drop pat.length)
    else c :: pyReplaceF pat rep fuel cs

/-- Python `s.replace(pat, rep)`. -/
def pyReplace (pat rep s : PyStr) : PyStr :=
  match pat with
  | [] => pyReplaceEmptyPat rep s
  | _ :: _ => pyReplaceF pat rep s.length s

/-- Source lines 82-87 (`replace_in_string`): for every entry of the
variable-value mapping, in insertion order, replace every occurrence of the
placeholder with the value. -/
def replaceInString (varValues : List (PyStr × PyStr)) (s : PyStr) : PyStr :=
  varValues.foldl (fun acc nv => pyReplace (varPat nv.1) nv.2 acc) s

/-- Attempt to match `\{\{(\w+)\}\}` at the start of the string: `{{`, a
maximal nonempty run of word characters, then `}}`.  On success, return the
captured name and the remainder after the match. -/
def tryToken : PyStr → Option (PyStr × PyStr)
  | c1 :: c2 :: rest =>
    if c1 = lb ∧ c2 = lb then
      match rest.drop (rest.takeWhile isWordChar).length with
      | r1 :: r2 :: rem2 =>
        if r1 = rb ∧ r2 = rb ∧ rest.takeWhile isWordChar ≠ [] then
          some (rest.takeWhile isWordChar, rem2)
        else none
      | _ => none
    else none
  | _ => none

/-- Fueled scan for `\{\{(\w+)\}\}` matches, the semantics of `re.findall`
with that pattern: at each position try a match; on success record the name
and continue after the match, otherwise advance one character.  The fuel is
structural so that the function evaluates by kernel reduction. -/
def scanTokensF : Nat → PyStr → List PyStr
  | _, [] => []
  | 0, _ => []
  | fuel + 1, c :: cs =>
    match tryToken (c :: cs) with
    | some (n, rem2) => n :: scanTokensF fuel rem2
    | none => scanTokensF fuel cs

/-- Source line 128: all `\{\{(\w+)\}\}` capture groups in a string, in
match order. -/
def scanTokens (s : PyStr) : List PyStr := scanTokensF s.length s

/-- Python `set.add` on a list modeled with insertion order. -/
def setInsert (acc : List PyStr) (x : PyStr) : List PyStr :=
  if x ∈ acc then acc else acc ++ [x]

/-- Accumulate the token names of one string into the unreplaced set
(source lines 132-134). -/
def scanString (acc : List PyStr) (s : PyStr) : List PyStr :=
  (scanTokens s).foldl setInsert acc

/-- One permission entry of a template constraint
(`TemplateConstraintPermission`: `action`, `type`). -/
structure TemplatePermission where
  action : PyStr
  type : PyStr
deriving DecidableEq

/-- Criteria value, `Union[str, List[str]]` in `ConstraintCriteriaModel`. -/
inductive CriteriaValue where
  | s (v : PyStr)
  | arr (vs : List PyStr)
deriving DecidableEq

/-- One criterion (`ConstraintCriteriaModel`: `field`, `operator`, `value`). -/
structure Criterion where
  field : PyStr
  operator : PyStr
  value : CriteriaValue
deriving DecidableEq

/-- The constraint dictionary built at source lines 306-316 from a
`TemplateConstraintDefinition`, in key insertion order: name, description,
objectType, criteriaAnd, criteriaOr, groupPermissions. -/
structure ConstraintDict where
  name : PyStr
  description : PyStr
  objectType : PyStr
  criteriaAnd : List Criterion
  criteriaOr : List Criterion
  groupPermissions : List TemplatePermission
deriving DecidableEq

/-- Variable substitution inside one criterion dictionary: string values are
replaced, lists of strings are replaced elementwise (source lines 98-107). -/
def substCriterion (varValues : List (PyStr × PyStr)) (cr : Criterion) : Criterion :=
  { field := replaceInString varValues cr.field
    operator := replaceInString varValues cr.operator
    value :=
      match cr.value with
      | .s v => .s (replaceInString varValues v)
      | .arr vs => .arr (vs.map (replaceInString varValues)) }

/-- Variable substitution inside one permission dictionary
(source lines 98-107 applied to the `action`/`type` strings). -/
def substPermission (varValues : List (PyStr × PyStr)) (p : TemplatePermission) : TemplatePermission :=
  { action := replaceInString varValues p.action
    type := replaceInString varValues p.type }

/-- Variable substitution over one constraint dictionary
(source lines 90-115 specialized to the shape built at lines 306-316). -/
def substConstraint (varValues : List (PyStr × PyStr)) (c : ConstraintDict) : ConstraintDict :=
  { name := replaceInString varValues c.name
    description := replaceInString varValues c.description
    objectType := replaceInString varValues c.objectType
    criteriaAnd := c.criteriaAnd.map (substCriterion varValues)
    criteriaOr := c.criteriaOr.map (substCriterion varValues)
    groupPermissions := c.groupPermissions.map (substPermission varValues) }

/-- Source lines 69-116 (`substitute_variables`). -/
def substituteVariables (cs : List ConstraintDict) (varValues : List (PyStr × PyStr)) : List ConstraintDict :=
  cs.map (substConstraint varValues)

/-- Scan one criterion dictionary for unreplaced tokens
(`scan_value` recursion at source lines 131-140). -/
def scanCriterion (acc : List PyStr) (cr : Criterion) : List PyStr :=
  let a1 := scanString acc cr.field
  let a2 := scanString a1 cr.operator
  match cr.value with
  | .s v => scanString a2 v
  | .arr vs => vs.foldl scanString a2

/-- Scan one permission dictionary for unreplaced tokens. -/
def scanPermission (acc : List PyStr) (p : TemplatePermission) : List PyStr :=
  scanString (scanString acc p.action) p.type

/-- Scan one constraint dictionary for unreplaced tokens, fields in
insertion order. -/
def scanConstraint (acc : List PyStr) (c : ConstraintDict) : List PyStr :=
  let a1 := scanString acc c.name
  let a2 := scanString a1 c.description
  let a3 := scanString a2 c.objectType
  let a4 := c.criteriaAnd.foldl scanCriterion a3
  let a5 := c.criteriaOr.foldl scanCriterion a4
  c.groupPermissions.foldl scanPermission a5

/-- Source lines 119-146 (`find_unreplaced_variables`): the set of variable
names still appearing as `{{NAME}}` after substitution, as a duplicate-free
list in first-encounter order (Python collects them into a `set`). -/
def findUnreplaced (cs : List ConstraintDict) : List PyStr :=
  cs.foldl scanConstraint []

/-- Lexicographic comparison of strings by code point, the order used by
Python `sorted` on strings. -/
def lexLe : PyStr → PyStr → Bool
  | [], _ => true
  | _ :: _, [] => false
  | a :: as, b :: bs =>
    if a.toNat < b.toNat then true
    else if b.toNat < a.toNat then false
    else lexLe as bs

/-- Insert into a lexicographically sorted list. -/
def insertSorted (x : PyStr) : List PyStr → List PyStr
  | [] => [x]
  | y :: ys => if lexLe x y then x :: y :: ys else y :: insertSorted x ys

/-- Python `sorted` on a list of strings (insertion sort; stability is
irrelevant here because the input has no duplicates). -/
def sortNames : List PyStr → List PyStr
  | [] => []
  | x :: xs => insertSorted x (sortNames xs)

/-- Python `", ".join`. -/
def joinCS (l : List PyStr) : PyStr := List.intercalate (", ".data) l

/-- The error message raised at source lines 324-327 for unreplaced
variables: it names every unresolved variable in sorted order. -/
def unreplacedMsg (u : List PyStr) : PyStr :=
  ("Unreplaced template variables found after substitution: ").data
    ++ joinCS (sortNames u)
    ++ (". Provide values for these in variableValues.").data

/-- Python dictionary lookup on an association list (first match). -/
def dictGet (k : PyStr) : List (PyStr × PyStr) → Option PyStr
  | [] => none
  | (k', v) :: rest => if k' = k then some v else dictGet k rest

/-- Distinct elements of a list not already in `seen`, in first-occurrence
order: the specification-side description of the `set`-guarded loops of
`_transform_to_denormalized_format`. -/
def firstOccFrom (seen : List PyStr) : List PyStr → List PyStr
  | [] => []
  | x :: xs => if x ∈ seen then firstOccFrom seen xs else x :: firstOccFrom (seen ++ [x]) xs

/-- Distinct elements of a list in first-occurrence order. -/
def firstOcc (l : List PyStr) : List PyStr := firstOccFrom [] l

/-- Python truthiness of an optional string: `None` and the empty string
are falsy (the `if group_id` test at source lines 205 and 217). -/
def pyTruthy : Option PyStr → Option PyStr
  | none => none
  | some s => if s = [] then none else some s

/-- Key separator literal `#group#` of source line 208. -/
def gSep : PyStr := "#group#".data

/-- Key separator literal `#user#` of source line 220. -/
def uSep : PyStr := "#user#".data

/-- The dictionary key `ROLE_NAME`. -/
def roleNameKey : PyStr := "ROLE_NAME".data

/-- A group-permission entry of a constraint in API format (source lines
253-259).  `groupId` is optional because `_transform_to_denormalized_format`
reads it with `.get` (source line 204). -/
structure ApiGroupPerm where
  id : PyStr
  groupId : Option PyStr
  permission : PyStr
  permissionType : PyStr
deriving DecidableEq

/-- A user-permission entry of a constraint in API format; `userId` is read
with `.get` at source line 216. -/
structure ApiUserPerm where
  id : PyStr
  userId : Option PyStr
  permission : PyStr
  permissionType : PyStr
deriving DecidableEq

/-- A constraint in API format, the dictionary built at source lines
262-275 and consumed by `_transform_to_denormalized_format`. -/
structure ConstraintData where
  identifier : PyStr
  name : PyStr
  description : PyStr
  objectType : PyStr
  criteriaAnd : List Criterion
  criteriaOr : List Criterion
  groupPermissions : List ApiGroupPerm
  userPermissions : List ApiUserPerm
  dateCreated : PyStr
  dateModified : PyStr
  createdBy : PyStr
  modifiedBy : PyStr
deriving DecidableEq

/-- One denormalized storage item (source lines 184-228).  The code stores
the criteria and permission lists as `json.dumps` blobs; serialization is
modeled as the identity since no claim inspects the encoding. -/
structure DenormItem where
  constraintId : PyStr
  name : PyStr
  description : PyStr
  objectType : PyStr
  criteriaAnd : List Criterion
  criteriaOr : List Criterion
  groupPermissions : List ApiGroupPerm
  userPermissions : List ApiUserPerm
  dateCreated : PyStr
  dateModified : PyStr
  createdBy : PyStr
  modifiedBy : PyStr
  groupId : Option PyStr
  userId : Option PyStr
deriving DecidableEq

/-- The group loop of `_transform_to_denormalized_format` (source lines
200-210): one item per unique truthy `groupId`, in first-occurrence order,
keyed `constraintId#group#groupId`. -/
def groupItemsLoop (base : DenormItem) (cid : PyStr) : List ApiGroupPerm → List PyStr → List DenormItem
  | [], _ => []
  | p :: rest, seen =>
    match pyTruthy p.groupId with
    | some g =>
      if g ∈ seen then groupItemsLoop base cid rest seen
      else { base with constraintId := cid ++ gSep ++ g, groupId := some g }
        :: groupItemsLoop base cid rest (seen ++ [g])
    | none => groupItemsLoop base cid rest seen

/-- The user loop of `_transform_to_denormalized_format` (source lines
212-222), keyed `constraintId#user#userId`. -/
def userItemsLoop (base : DenormItem) (cid : PyStr) : List ApiUserPerm → List PyStr → List DenormItem
  | [], _ => []
  | p :: rest, seen =>
    match pyTruthy p.userId with
    | some u =>
      if u ∈ seen then userItemsLoop base cid rest seen
      else { base with constraintId := cid ++ uSep ++ u, userId := some u }
        :: userItemsLoop base cid rest (seen ++ [u])
    | none => userItemsLoop base cid rest seen

/-- The shared base record of source lines 184-198, with an empty partition
key (the loops fill it in). -/
def baseItem (cd : ConstraintData) (now : PyStr) : DenormItem :=
  { constraintId := []
    name := cd.name
    description := cd.description
    objectType := cd.objectType
    criteriaAnd := cd.criteriaAnd
    criteriaOr := cd.criteriaOr
    groupPermissions := cd.groupPermissions
    userPermissions := cd.userPermissions
    dateCreated := cd.dateCreated
    dateModified := now
    createdBy := cd.createdBy
    modifiedBy := cd.modifiedBy
    groupId := none
    userId := none }

/-- The denormalized item for group grantee `g` (source lines 207-210). -/
def mkGroupItem (cd : ConstraintData) (now : PyStr) (g : PyStr) : DenormItem :=
  { baseItem cd now with constraintId := cd.identifier ++ gSep ++ g, groupId := some g }

/-- The denormalized item for user grantee `u` (source lines 219-222). -/
def mkUserItem (cd : ConstraintData) (now : PyStr) (u : PyStr) : DenormItem :=
  { baseItem cd now with constraintId := cd.identifier ++ uSep ++ u, userId := some u }

/-- Source lines 170-230 (`_transform_to_denormalized_format`): the shared
base record, one item per unique group grantee, one per unique user
grantee, and a single bare-keyed item when no grantee produced any item. -/
def transformToDenormalized (cd : ConstraintData) (now : PyStr) : List DenormItem :=
  let base := baseItem cd now
  let items := groupItemsLoop base cd.identifier cd.groupPermissions []
    ++ userItemsLoop base cd.identifier cd.userPermissions []
  if items = [] then [{ base with constraintId := cd.identifier }] else items

/-- Map the template permissions to API format (source lines 252-259),
consuming one generated UUID per permission and binding every `groupId` to
the role name; returns the next UUID counter. -/
def buildPerms (roleName : PyStr) (uuidGen : Nat → PyStr) : List TemplatePermission → Nat → List ApiGroupPerm × Nat
  | [], k => ([], k)
  | p :: rest, k =>
    let pk := buildPerms roleName uuidGen rest (k + 1)
    ({ id := uuidGen k, groupId := some roleName, permission := p.action, permissionType := p.type } :: pk.1, pk.2)

/-- Source lines 233-277 (`build_constraint_data`): a fresh identifier, the
caller username (first token, else "system"), group permissions bound to
the role name, empty user permissions, and audit metadata. -/
def buildConstraintData (c : ConstraintDict) (roleName : PyStr) (tokens : List PyStr)
    (uuidGen : Nat → PyStr) (k : Nat) (now : PyStr) : ConstraintData × Nat :=
  let cid := uuidGen k
  let username := match tokens with | [] => "system".data | t :: _ => t
  let pk := buildPerms roleName uuidGen c.groupPermissions (k + 1)
  ({ identifier := cid
     name := c.name
     description := c.description
     objectType := c.objectType
     criteriaAnd := c.criteriaAnd
     criteriaOr := c.criteriaOr
     groupPermissions := pk.1
     userPermissions := []
     dateCreated := now
     dateModified := now
     createdBy := username
     modifiedBy := username }, pk.2)

/-- Result of one lookup against the external role registry. -/
inductive LookupResult where
  | found
  | notFound
  | err
deriving DecidableEq

/-- The role registry: either unconfigured (`ROLES_TABLE_NAME` absent) or a
lookup function. -/
inductive RegistryState where
  | unconfigured
  | configured (lookup : PyStr → LookupResult)

/-- Source lines 149-167 (`validate_constraint_role_exists`): `True` when
the registry is unconfigured or the lookup raises; `False` only on an
explicit not-found. -/
def validateRoleExists (reg : RegistryState) (groupId : PyStr) : Bool :=
  match reg with
  | .unconfigured => true
  | .configured lookup =>
    match lookup groupId with
    | .found => true
    | .notFound => false
    | .err => true

/-- Errors escaping `import_template_constraints`: the
`VAMSGeneralErrorResponse` for unreplaced variables, a storage exception
from the batch writer, or the `KeyError` on a missing `ROLE_NAME`. -/
inductive ImportErr where
  | general (msg : PyStr)
  | storage
  | keyError
deriving DecidableEq

/-- `ImportConstraintsTemplateResponseModel`. -/
structure ImportResponse where
  success : Bool
  message : PyStr
  constraintsCreated : Nat
  constraintIds : List PyStr
  timestamp : PyStr
deriving DecidableEq

/-- The success message of source line 358. -/
def successMsg (templateName : Option PyStr) (roleName : PyStr) (n : Nat) : PyStr :=
  ("Successfully imported ").data ++ Nat.toDigits 10 n
    ++ (" constraints from template '").data
    ++ (match templateName with | some nm => nm | none => "unknown".data)
    ++ ("' for role '").data ++ roleName ++ ("'").data

/-- The per-constraint write loop of source lines 336-351: build the API
payload, denormalize, batch-write (all-or-nothing per constraint, success
given by `writeOk` at the running constraint index), then record the
created identifier.  On a storage failure the error propagates and the
items already written stay in the store. -/
def writeLoop (roleName : PyStr) (tokens : List PyStr) (writeOk : Nat → Bool)
    (uuidGen : Nat → PyStr) (now : PyStr) :
    List ConstraintDict → Nat → Nat → List PyStr → List DenormItem →
    Except ImportErr (List PyStr) × List DenormItem
  | [], _, _, ids, store => (.ok ids, store)
  | c :: rest, i, k, ids, store =>
    let bk := buildConstraintData c roleName tokens uuidGen k now
    let items := transformToDenormalized bk.1 now
    if writeOk i then
      writeLoop roleName tokens writeOk uuidGen now rest (i + 1) bk.2 (ids ++ [bk.1.identifier]) (store ++ items)
    else (.error .storage, store)

/-- Source lines 284-362 (`import_template_constraints`): extract
`ROLE_NAME`, substitute variables, fail on unreplaced variables, run the
soft role-existence check, write each constraint, and summarize.  Returns
the result together with the final content of the constraints store. -/
def importTemplateConstraints (templateName : Option PyStr)
    (varValues : List (PyStr × PyStr)) (constraints : List ConstraintDict)
    (tokens : List PyStr) (registry : RegistryState) (writeOk : Nat → Bool)
    (uuidGen : Nat → PyStr) (now : PyStr) :
    Except ImportErr ImportResponse × List DenormItem :=
  match dictGet roleNameKey varValues with
  | none => (.error .keyError, [])
  | some roleName =>
    let substituted := substituteVariables constraints varValues
    let u := findUnreplaced substituted
    if u ≠ [] then (.error (.general (unreplacedMsg u)), [])
    else
      let _roleExistsFlag := validateRoleExists registry roleName
      match writeLoop roleName tokens writeOk uuidGen now substituted 0 0 [] [] with
      | (.ok ids, store) =>
        (.ok { success := true
               message := successMsg templateName roleName ids.length
               constraintsCreated := ids.length
               constraintIds := ids
               timestamp := now }, store)
      | (.error e, store) => (.error e, store)

/-- `TemplateVariableDefinition` (roleConstraints.py lines 232-237). -/
structure VarDef where
  name : PyStr
  required : Bool
  description : Option PyStr
  default : Option PyStr
deriving DecidableEq

/-- `TemplateMetadata` (only the name is consumed downstream). -/
structure TemplateMeta where
  name : PyStr
deriving DecidableEq

/-- `ImportConstraintsTemplateRequestModel` (roleConstraints.py lines
263-268); the source field `variables` is named `varDefs` because
`variables` is not a legal Lean field name. -/
structure ImportRequest where
  template : Option TemplateMeta
  varDefs : List VarDef
  variableValues : List (PyStr × PyStr)
  constraints : List ConstraintDict

/-- The validation error of roleConstraints.py line 284 for a missing
`ROLE_NAME`. -/
def roleNameRequiredMsg : PyStr :=
  "variableValues must include 'ROLE_NAME' (used as groupId for all constraints)".data

/-- The validation error of roleConstraints.py lines 302-305 for a required
variable without value or default (a Python f-string prints a `None`
description as the text `None`). -/
def requiredVarMsg (v : VarDef) : PyStr :=
  ("Required variable '").data ++ v.name
    ++ ("' not provided in variableValues. Description: ").data
    ++ (match v.description with | some d => d | none => "None".data)

/-- Required-variable check with default back-fill (roleConstraints.py
lines 297-305): a missing required variable with a default is appended to
`variableValues` (Python dict insertion appends at the end), one without a
default fails. -/
def backfillVars : List VarDef → List (PyStr × PyStr) → Except PyStr (List (PyStr × PyStr))
  | [], vv => .ok vv
  | v :: rest, vv =>
    if v.required ∧ dictGet v.name vv = none then
      match v.default with
      | some d => backfillVars rest (vv ++ [(v.name, d)])
      | none => .error (requiredVarMsg v)
    else backfillVars rest vv

/-- Invalid-objectType message of roleConstraints.py lines 315-318. -/
def invalidObjectTypeMsg (allowed : List PyStr) (x : PyStr) : PyStr :=
  ("Invalid objectType '").data ++ x ++ ("'. Allowed: ").data ++ joinCS allowed

/-- Missing-criteria message of roleConstraints.py lines 322-324. -/
def noCriteriaMsg (name : PyStr) : PyStr :=
  ("Constraint '").data ++ name ++ ("' must have at least one criteriaAnd or criteriaOr").data

/-- Invalid-operator message of roleConstraints.py lines 329-332. -/
def invalidOperatorMsg (allowed : List PyStr) (x : PyStr) : PyStr :=
  ("Invalid operator '").data ++ x ++ ("'. Allowed: ").data ++ joinCS allowed

/-- Invalid-permission-action message of roleConstraints.py lines 337-340. -/
def invalidActionMsg (allowed : List PyStr) (x : PyStr) : PyStr :=
  ("Invalid permission action '").data ++ x ++ ("'. Allowed: ").data ++ joinCS allowed

/-- Invalid-permission-type message of roleConstraints.py lines 342-345. -/
def invalidPermTypeMsg (allowed : List PyStr) (x : PyStr) : PyStr :=
  ("Invalid permission type '").data ++ x ++ ("'. Allowed: ").data ++ joinCS allowed

/-- Operator checks over the concatenated criteria lists
(roleConstraints.py lines 327-332). -/
def checkCriteriaOps (allowedOperators : List PyStr) : List Criterion → Except PyStr Unit
  | [] => .ok ()
  | cr :: rest =>
    if cr.operator ∈ allowedOperators then checkCriteriaOps allowedOperators rest
    else .error (invalidOperatorMsg allowedOperators cr.operator)

/-- Permission action/type checks (roleConstraints.py lines 335-345). -/
def checkPerms (allowedPerms allowedPermTypes : List PyStr) : List TemplatePermission → Except PyStr Unit
  | [] => .ok ()
  | p :: rest =>
    if p.action ∉ allowedPerms then .error (invalidActionMsg allowedPerms p.action)
    else if p.type ∉ allowedPermTypes then .error (invalidPermTypeMsg allowedPermTypes p.type)
    else checkPerms allowedPerms allowedPermTypes rest

/-- Per-constraint validation loop (roleConstraints.py lines 312-345):
objectType in the allowed set, at least one criterion, allowed operators,
allowed permission actions and types; fail-fast on the first violation. -/
def checkConstraintList (aot aops ap apt : List PyStr) : List ConstraintDict → Except PyStr Unit
  | [] => .ok ()
  | c :: rest =>
    if c.objectType ∉ aot then .error (invalidObjectTypeMsg aot c.objectType)
    else if c.criteriaAnd = [] ∧ c.criteriaOr = [] then .error (noCriteriaMsg c.name)
    else
      match checkCriteriaOps aops (c.criteriaAnd ++ c.criteriaOr) with
      | .error m => .error m
      | .ok _ =>
        match checkPerms ap apt c.groupPermissions with
        | .error m => .error m
        | .ok _ => checkConstraintList aot aops ap apt rest

/-- Source `validate_template_import` (roleConstraints.py lines 270-347):
`ROLE_NAME` present, `ROLE_NAME` well-formed (the object-name validator
lives in `common/validators.py`, outside this repository slice, and is
abstracted as the parameter `objectNameCheck`, returning an error message
exactly when the pattern check fails), required variables back-filled from
defaults, at least one constraint, and the closed-vocabulary checks.
Returns the (possibly back-filled) `variableValues`. -/
def validateTemplateImport (aot aops ap apt : List PyStr)
    (objectNameCheck : PyStr → Option PyStr) (req : ImportRequest) :
    Except PyStr (List (PyStr × PyStr)) :=
  match dictGet roleNameKey req.variableValues with
  | none => .error roleNameRequiredMsg
  | some rn =>
    match objectNameCheck rn with
    | some m => .error (("Invalid ROLE_NAME: ").data ++ m)
    | none =>
      match backfillVars req.varDefs req.variableValues with
      | .error m => .error m
      | .ok vv =>
        if req.constraints = [] then .error ("At least one constraint is required").data
        else
          match checkConstraintList aot aops ap apt req.constraints with
          | .error m => .error m
          | .ok _ => .ok vv

/-- The handler-visible outcome of one import request (the `except` clauses
of `lambda_handler`, source lines 433-441): pydantic `ValidationError` maps
to a validation response, `VAMSGeneralErrorResponse` to a general-error
response, and any other exception (storage errors included) to an
internal-error response. -/
inductive HandlerResp where
  | okResp (r : ImportResponse)
  | validationResp (msg : PyStr)
  | generalResp (msg : PyStr)
  | internalResp
deriving DecidableEq

/-- Whether a handler response is the general-error response. -/
def isGeneralResp : HandlerResp → Bool
  | .generalResp _ => true
  | _ => false

/-- The authorized-POST slice of `lambda_handler` (source lines 413-441):
parse/validate the request model, run the import with the back-filled
variable values, and map exceptions to response categories.  The second
component is the final content of the constraints store. -/
def handleImport (aot aops ap apt : List PyStr) (objectNameCheck : PyStr → Option PyStr)
    (req : ImportRequest) (tokens : List PyStr) (registry : RegistryState)
    (writeOk : Nat → Bool) (uuidGen : Nat → PyStr) (now : PyStr) :
    HandlerResp × List DenormItem :=
  match validateTemplateImport aot aops ap apt objectNameCheck req with
  | .error m => (.validationResp m, [])
  | .ok vv =>
    match importTemplateConstraints (req.template.map (fun t => t.name)) vv req.constraints
        tokens registry writeOk uuidGen now with
    | (.ok r, store) => (.okResp r, store)
    | (.error (.general m), store) => (.generalResp m, store)
    | (.error .storage, store) => (.internalResp, store)
    | (.error .keyError, store) => (.internalResp, store)

/-- Specification-side description of the store content after the first `n`
constraints of the substituted list have been written, starting from UUID
counter `k`. -/
def prefixStore (roleName : PyStr) (tokens : List PyStr) (uuidGen : Nat → PyStr) (now : PyStr) :
    List ConstraintDict → Nat → Nat → List DenormItem
  | _, 0, _ => []
  | [], _ + 1, _ => []
  | c :: rest, n + 1, k =>
    let bk := buildConstraintData c roleName tokens uuidGen k now
    transformToDenormalized bk.1 now ++ prefixStore roleName tokens uuidGen now rest n bk.2

/-- Well-formedness of a string with respect to a set of variable names:
the string is a concatenation of brace-free plain characters and complete
`{{n}}` tokens whose names are in `keys`. -/
inductive TokenWF (keys : List PyStr) : PyStr → Prop where
  | nil : TokenWF keys []
  | plain {c : Char} {s : PyStr} : c ≠ lb → c ≠ rb → TokenWF keys s → TokenWF keys (c :: s)
  | tok {n : PyStr} {s : PyStr} : n ∈ keys → n ≠ [] → (∀ c ∈ n, isWordChar c) →
      TokenWF keys s → TokenWF keys (lb :: lb :: (n ++ rb :: rb :: s))

/-- Well-formedness of one criterion's strings. -/
def criterionWF (keys : List PyStr) (cr : Criterion) : Prop :=
  TokenWF keys cr.field ∧ TokenWF keys cr.operator ∧
    (match cr.value with
     | .s v => TokenWF keys v
     | .arr vs => ∀ v ∈ vs, TokenWF keys v)

/-- Well-formedness of every string of a constraint dictionary. -/
def constraintWF (keys : List PyStr) (c : ConstraintDict) : Prop :=
  TokenWF keys c.name ∧ TokenWF keys c.description ∧ TokenWF keys c.objectType ∧
    (∀ cr ∈ c.criteriaAnd, criterionWF keys cr) ∧
    (∀ cr ∈ c.criteriaOr, criterionWF keys cr) ∧
    (∀ p ∈ c.groupPermissions, TokenWF keys p.action ∧ TokenWF keys p.type)

/-! Concrete sample inputs used by witnesses and counterexamples. -/

/-- A sample timestamp. -/
def sampleNow : PyStr := "2024-01-01T00:00:00".data

/-- A constraint in API format with no grantees at all. -/
def c2cd : ConstraintData :=
  { identifier := "cid1".data
    name := "n".data
    description := "d".data
    objectType := "asset".data
    criteriaAnd := []
    criteriaOr := []
    groupPermissions := []
    userPermissions := []
    dateCreated := "t0".data
    dateModified := "t0".data
    createdBy := "u".data
    modifiedBy := "u".data }

/-- A constraint whose permission entries all have absent or empty grantee
ids. -/
def c10cd : ConstraintData :=
  { c2cd with
    identifier := "cid2".data
    groupPermissions :=
      [{ id := "i1".data, groupId := some [], permission := "GET".data, permissionType := "allow".data },
       { id := "i2".data, groupId := none, permission := "GET".data, permissionType := "allow".data }]
    userPermissions :=
      [{ id := "i3".data, userId := none, permission := "GET".data, permissionType := "allow".data }] }

/-- The fan-out example of the claim: group permissions for groups A, A, B
and a user permission for U. -/
def c1cd : ConstraintData :=
  { c2cd with
    identifier := "cid".data
    groupPermissions :=
      [{ id := "i1".data, groupId := some "A".data, permission := "GET".data, permissionType := "allow".data },
       { id := "i2".data, groupId := some "A".data, permission := "PUT".data, permissionType := "allow".data },
       { id := "i3".data, groupId := some "B".data, permission := "GET".data, permissionType := "allow".data }]
    userPermissions :=
      [{ id := "i4".data, userId := some "U".data, permission := "GET".data, permissionType := "allow".data }] }


/-- A well-formed template constraint with no placeholder tokens. -/
def sampleCon : ConstraintDict :=
  { name := "n1".data
    description := "base constraint".data
    objectType := "asset".data
    criteriaAnd := [{ field := "databaseId".data, operator := "equals".data, value := .s "proj1".data }]
    criteriaOr := []
    groupPermissions := [{ action := "GET".data, type := "allow".data }] }

/-- A template constraint whose name is the unresolved token for X. -/
def tokenCon : ConstraintDict := { sampleCon with name := varPat "X".data }

/-- A variable-value mapping supplying only ROLE_NAME. -/
def c3vv : List (PyStr × PyStr) := [(roleNameKey, "db-admin".data)]

/-- Sample caller tokens. -/
def sampleTokens : List PyStr := ["alice".data]

/-- A deterministic UUID supply: the decimal digits of the counter. -/
def sampleUuid : Nat → PyStr := fun k => Nat.toDigits 10 k

/-- Sample allowed object types. -/
def sampleAot : List PyStr := ["asset".data]

/-- Sample allowed operators. -/
def sampleAops : List PyStr := ["equals".data]

/-- Sample allowed permission actions. -/
def sampleAp : List PyStr := ["GET".data]

/-- Sample allowed permission types. -/
def sampleApt : List PyStr := ["allow".data]

/-- Sample object-name pattern check that accepts everything. -/
def sampleOnc : PyStr → Option PyStr := fun _ => none

/-- A request whose variableValues omits ROLE_NAME. -/
def c7req : ImportRequest :=
  { template := none
    varDefs := []
    variableValues := [("DATABASE_ID".data, "db1".data)]
    constraints := [sampleCon] }

/-- A request with two well-formed constraints (for the storage-failure
scenario). -/
def c6req : ImportRequest :=
  { template := none
    varDefs := []
    variableValues := c3vv
    constraints := [sampleCon, sampleCon] }

/-- A write oracle whose second batch (constraint index 1) fails. -/
def c6writeOk : Nat → Bool := fun i => i == 0

/-- Variable mapping whose only value contains the token for B, with B not
a key. -/
def c4vars : List (PyStr × PyStr) := [(['A'], varPat ['B'])]

/-- The Python string `{{ROLE_NAME}}-access`, written in token-then-plain
shape. -/
def wfName : PyStr := lb :: lb :: ("ROLE_NAME".data ++ rb :: rb :: "-access".data)

/-- A well-formed template constraint referencing only ROLE_NAME. -/
def wfCon : ConstraintDict := { sampleCon with name := wfName }

/-! Helper lemmas. -/

theorem pyReplaceF_congr (pat rep : PyStr) (hp : pat ≠ []) :
    ∀ (f1 f2 : Nat) (s : PyStr), s.length ≤ f1 → s.length ≤ f2 →
      pyReplaceF pat rep f1 s = pyReplaceF pat rep f2 s := by
  have hpl : 1 ≤ pat.length := by
    cases pat with
    | nil => exact absurd rfl hp
    | cons a as => simp
  intro f1
  induction f1 with
  | zero =>
    intro f2 s h1 _h2
    have hs : s = [] := by cases s with
      | nil => rfl
      | cons c cs => simp at h1
    subst hs
    cases f2 <;> rfl
  | succ f1 ih =>
    intro f2 s h1 h2
    cases s with
    | nil => cases f2 <;> rfl
    | cons c cs =>
      cases f2 with
      | zero => simp at h2
      | succ f2' =>
        simp only [List.length_cons] at h1 h2
        simp only [pyReplaceF]
        by_cases hm : pat.isPrefixOf (c :: cs) = true
        · rw [if_pos hm, if_pos hm]
          have hd : ((c :: cs).drop pat.length).length ≤ f1 := by
            simp only [List.length_drop, List.length_cons]
            omega
          have hd2 : ((c :: cs).drop pat.length).length ≤ f2' := by
            simp only [List.length_drop, List.length_cons]
            omega
          rw [ih f2' _ hd hd2]
        · rw [if_neg hm, if_neg hm]
          have hc1 : cs.length ≤ f1 := by omega
          have hc2 : cs.length ≤ f2' := by omega
          rw [ih f2' _ hc1 hc2]

theorem pyReplace_nil_str (p : Char) (ps rep : PyStr) : pyReplace (p :: ps) rep [] = [] := rfl

theorem pyReplace_cons_pos (p : Char) (ps rep : PyStr) (c : Char) (cs : PyStr)
    (h : (p :: ps).isPrefixOf (c :: cs) = true) :
    pyReplace (p :: ps) rep (c :: cs) =
      rep ++ pyReplace (p :: ps) rep ((c :: cs).drop (p :: ps).length) := by
  have hlen : ((c :: cs).drop (p :: ps).length).length ≤ cs.length := by
    simp only [List.length_drop, List.length_cons]
    omega
  show pyReplaceF (p :: ps) rep (cs.length + 1) (c :: cs) =
    rep ++ pyReplaceF (p :: ps) rep ((c :: cs).drop (p :: ps).length).length
      ((c :: cs).drop (p :: ps).length)
  simp only [pyReplaceF]
  rw [if_pos h]
  congr 1
  exact pyReplaceF_congr _ _ (by simp) cs.length _ _ hlen le_rfl

theorem pyReplace_cons_neg (p : Char) (ps rep : PyStr) (c : Char) (cs : PyStr)
    (h : ¬ (p :: ps).isPrefixOf (c :: cs) = true) :
    pyReplace (p :: ps) rep (c :: cs) = c :: pyReplace (p :: ps) rep cs := by
  show pyReplaceF (p :: ps) rep (cs.length + 1) (c :: cs) = c :: pyReplaceF (p :: ps) rep cs.length cs
  simp only [pyReplaceF]
  rw [if_neg h]

theorem subStr_cons_of (t : PyStr) (c : Char) (s : PyStr) (h : SubStr t s) : SubStr t (c :: s) := by
  obtain ⟨x, y, rfl⟩ := h
  exact ⟨c :: x, y, rfl⟩

theorem subStr_append_left (t u s : PyStr) (h : SubStr t s) : SubStr t (u ++ s) := by
  obtain ⟨x, y, rfl⟩ := h
  exact ⟨u ++ x, y, by simp⟩

theorem subStr_here (t y : PyStr) : SubStr t (t ++ y) := ⟨[], y, rfl⟩

theorem subStr_trans {a b c : PyStr} (h1 : SubStr a b) (h2 : SubStr b c) : SubStr a c := by
  obtain ⟨x, y, rfl⟩ := h1
  obtain ⟨u, v, rfl⟩ := h2
  exact ⟨u ++ x, y ++ v, by simp⟩

theorem isPrefixOf_iff (p : PyStr) : ∀ s : PyStr, p.isPrefixOf s = true ↔ ∃ t, s = p ++ t := by
  induction p with
  | nil => intro s; simp [List.isPrefixOf]
  | cons a as ih =>
    intro s
    cases s with
    | nil => simp [List.isPrefixOf]
    | cons b bs =>
      constructor
      · intro h
        simp only [List.isPrefixOf, Bool.and_eq_true, beq_iff_eq] at h
        obtain ⟨rfl, h2⟩ := h
        obtain ⟨t, rfl⟩ := (ih bs).mp h2
        exact ⟨t, rfl⟩
      · rintro ⟨t, ht⟩
        simp only [List.cons_append, List.cons.injEq] at ht
        obtain ⟨rfl, rfl⟩ := ht
        simp only [List.isPrefixOf, Bool.and_eq_true, beq_iff_eq]
        exact ⟨by simp, (ih _).mpr ⟨t, rfl⟩⟩

theorem not_isPrefixOf_head_ne {a : Char} {ps : PyStr} {c : Char} {t : PyStr} (h : a ≠ c) :
    ¬ (a :: ps).isPrefixOf (c :: t) = true := by
  intro hp
  obtain ⟨u, hu⟩ := (isPrefixOf_iff _ _).mp hp
  simp only [List.cons_append, List.cons.injEq] at hu
  exact h hu.1.symm

theorem hasSub_iff (t : PyStr) : ∀ s : PyStr, hasSub t s = true ↔ SubStr t s := by
  intro s
  induction s with
  | nil =>
    simp only [hasSub, decide_eq_true_eq]
    constructor
    · rintro rfl; exact ⟨[], [], rfl⟩
    · rintro ⟨x, y, hxy⟩
      rcases x with _ | ⟨a, x'⟩
      · rcases t with _ | ⟨b, t'⟩
        · rfl
        · simp at hxy
      · simp at hxy
  | cons c cs ih =>
    simp only [hasSub, Bool.or_eq_true, isPrefixOf_iff, ih]
    constructor
    · rintro (⟨u, hu⟩ | h)
      · exact ⟨[], u, by simp [hu]⟩
      · exact subStr_cons_of _ c _ h
    · rintro ⟨x, y, hxy⟩
      cases x with
      | nil => exact Or.inl ⟨y, by simpa using hxy⟩
      | cons a x' =>
        simp only [List.cons_append, List.cons.injEq] at hxy
        exact Or.inr ⟨x', y, hxy.2⟩

theorem takeWhile_length_le (p : Char → Bool) (l : PyStr) : (l.takeWhile p).length ≤ l.length := by
  induction l with
  | nil => simp
  | cons c cs ih =>
    simp only [List.takeWhile]
    cases p c
    · simp
    · simp
      omega

theorem tryToken_some_length (s : PyStr) (n rem2 : PyStr) (h : tryToken s = some (n, rem2)) :
    rem2.length + 4 ≤ s.length := by
  match s with
  | [] => simp [tryToken] at h
  | [c1] => simp [tryToken] at h
  | c1 :: c2 :: rest =>
    simp only [tryToken] at h
    split at h
    · split at h
      · split at h
        · rename_i heq _hok
          simp only [Option.some.injEq, Prod.mk.injEq] at h
          obtain ⟨_hn, rfl⟩ := h
          have hlen := congrArg List.length heq
          simp only [List.length_drop, List.length_cons] at hlen
          have htw : (rest.takeWhile isWordChar).length ≤ rest.length :=
            takeWhile_length_le _ _
          simp only [List.length_cons]
          omega
        · simp at h
      · simp at h
    · simp at h

theorem tryToken_none_head_ne (c : Char) (cs : PyStr) (h : c ≠ lb) :
    tryToken (c :: cs) = none := by
  cases cs with
  | nil => rfl
  | cons c2 cs2 =>
    simp only [tryToken]
    rw [if_neg (by intro hc; exact h hc.1)]

theorem scanTokensF_congr :
    ∀ (f1 f2 : Nat) (s : PyStr), s.length ≤ f1 → s.length ≤ f2 →
      scanTokensF f1 s = scanTokensF f2 s := by
  intro f1
  induction f1 with
  | zero =>
    intro f2 s h1 _h2
    have hs : s = [] := by cases s with
      | nil => rfl
      | cons c cs => simp at h1
    subst hs
    cases f2 <;> rfl
  | succ f1 ih =>
    intro f2 s h1 h2
    cases s with
    | nil => cases f2 <;> rfl
    | cons c cs =>
      cases f2 with
      | zero => simp at h2
      | succ f2' =>
        simp only [List.length_cons] at h1 h2
        simp only [scanTokensF]
        split
        · rename_i n rem2 heq
          have := tryToken_some_length _ _ _ heq
          simp only [List.length_cons] at this
          rw [ih f2' rem2 (by omega) (by omega)]
        · exact ih f2' cs (by omega) (by omega)

theorem scanTokens_nil : scanTokens [] = [] := rfl

theorem scanTokens_cons_ne (c : Char) (cs : PyStr) (h : c ≠ lb) :
    scanTokens (c :: cs) = scanTokens cs := by
  show scanTokensF (cs.length + 1) (c :: cs) = scanTokensF cs.length cs
  simp only [scanTokensF, tryToken_none_head_ne c cs h]

theorem scanTokens_eq_nil_of_no_lb (s : PyStr) (h : ∀ c ∈ s, c ≠ lb) : scanTokens s = [] := by
  induction s with
  | nil => rfl
  | cons c cs ih =>
    rw [scanTokens_cons_ne c cs (h c (by simp))]
    exact ih (fun d hd => h d (by simp [hd]))

theorem isWordChar_lb : isWordChar lb = false := by decide

theorem isWordChar_rb : isWordChar rb = false := by decide

theorem varPat_length (n : PyStr) : (varPat n).length = n.length + 4 := by
  simp [varPat]

theorem wordRunEq (C : PyStr) (hC : ∀ c ∈ C, isWordChar c) :
    ∀ (B : PyStr), (∀ c ∈ B, isWordChar c) →
      ∀ (z y : PyStr), C ++ rb :: rb :: z = B ++ rb :: rb :: y → C = B := by
  induction C with
  | nil =>
    intro B hB z y h
    cases B with
    | nil => rfl
    | cons b B' =>
      simp only [List.nil_append, List.cons_append, List.cons.injEq] at h
      have : isWordChar rb = true := h.1 ▸ hB b (by simp)
      exact absurd this (by decide)
  | cons c C' ih =>
    intro B hB z y h
    cases B with
    | nil =>
      simp only [List.cons_append, List.nil_append, List.cons.injEq] at h
      have : isWordChar rb = true := h.1 ▸ hC c (by simp)
      exact absurd this (by decide)
    | cons b B' =>
      simp only [List.cons_append, List.cons.injEq] at h
      obtain ⟨rfl, h2⟩ := h
      rw [ih (fun d hd => hC d (by simp [hd])) B' (fun d hd => hB d (by simp [hd])) z y h2]

theorem varPat_isPrefixOf_token (C B : PyStr) (hC : ∀ c ∈ C, isWordChar c)
    (hB : ∀ c ∈ B, isWordChar c) (y : PyStr)
    (h : (varPat C).isPrefixOf (lb :: lb :: (B ++ rb :: rb :: y)) = true) : C = B := by
  obtain ⟨t, ht⟩ := (isPrefixOf_iff _ _).mp h
  simp only [varPat, List.cons_append, List.cons.injEq, List.append_assoc] at ht
  obtain ⟨-, -, ht2⟩ := ht
  exact wordRunEq C hC B hB t y ht2.symm

theorem pyReplace_varPat_pos (C rep : PyStr) (c : Char) (cs : PyStr)
    (h : (varPat C).isPrefixOf (c :: cs) = true) :
    pyReplace (varPat C) rep (c :: cs) =
      rep ++ pyReplace (varPat C) rep ((c :: cs).drop (varPat C).length) :=
  pyReplace_cons_pos lb (lb :: (C ++ [rb, rb])) rep c cs h

theorem pyReplace_varPat_step (C rep : PyStr) (c : Char) (cs : PyStr)
    (h : ¬ (varPat C).isPrefixOf (c :: cs) = true) :
    pyReplace (varPat C) rep (c :: cs) = c :: pyReplace (varPat C) rep cs :=
  pyReplace_cons_neg lb (lb :: (C ++ [rb, rb])) rep c cs h

theorem pyReplace_varPat_cons_ne (C rep : PyStr) (c : Char) (cs : PyStr) (h : c ≠ lb) :
    pyReplace (varPat C) rep (c :: cs) = c :: pyReplace (varPat C) rep cs :=
  pyReplace_varPat_step C rep c cs (not_isPrefixOf_head_ne (fun he => h he.symm))

theorem pyReplace_at_match (p : Char) (ps rep t : PyStr) :
    pyReplace (p :: ps) rep ((p :: ps) ++ t) = rep ++ pyReplace (p :: ps) rep t := by
  have hpf : (p :: ps).isPrefixOf (p :: (ps ++ t)) = true := by
    rw [isPrefixOf_iff]
    exact ⟨t, by simp⟩
  have hstep := pyReplace_cons_pos p ps rep p (ps ++ t) hpf
  simp only [List.cons_append]
  rw [hstep]
  congr 1
  rw [show (p :: (ps ++ t)) = (p :: ps) ++ t by simp, List.drop_left]

theorem pyReplace_token_hit (C rep t : PyStr) :
    pyReplace (varPat C) rep (lb :: lb :: (C ++ rb :: rb :: t)) =
      rep ++ pyReplace (varPat C) rep t := by
  have hsh : lb :: lb :: (C ++ rb :: rb :: t) = varPat C ++ t := by simp [varPat]
  rw [hsh]
  exact pyReplace_at_match lb (lb :: (C ++ [rb, rb])) rep t

theorem pyReplace_word_skip (C rep : PyStr) (m : PyStr) (hm : ∀ c ∈ m, isWordChar c) (t : PyStr) :
    pyReplace (varPat C) rep (m ++ rb :: rb :: t) = m ++ rb :: rb :: pyReplace (varPat C) rep t := by
  induction m with
  | nil =>
    simp only [List.nil_append]
    rw [pyReplace_varPat_cons_ne C rep rb _ (by decide),
      pyReplace_varPat_cons_ne C rep rb _ (by decide)]
  | cons c m' ih =>
    have hc : c ≠ lb := by
      intro hce
      have : isWordChar lb = true := hce ▸ hm c (by simp)
      exact absurd this (by decide)
    simp only [List.cons_append]
    rw [pyReplace_varPat_cons_ne C rep c _ hc,
      ih (fun d hd => hm d (by simp [hd]))]

theorem pyReplace_token_skip (C m rep t : PyStr) (hCw : ∀ c ∈ C, isWordChar c)
    (hmw : ∀ c ∈ m, isWordChar c) (hmne : m ≠ []) (hCm : C ≠ m) :
    pyReplace (varPat C) rep (lb :: lb :: (m ++ rb :: rb :: t)) =
      lb :: lb :: (m ++ rb :: rb :: pyReplace (varPat C) rep t) := by
  have h0 : ¬ (varPat C).isPrefixOf (lb :: lb :: (m ++ rb :: rb :: t)) = true := by
    intro h
    exact hCm (varPat_isPrefixOf_token C m hCw hmw t h)
  have h1 : ¬ (varPat C).isPrefixOf (lb :: (m ++ rb :: rb :: t)) = true := by
    intro h
    obtain ⟨u, hu⟩ := (isPrefixOf_iff _ _).mp h
    simp only [varPat, List.cons_append, List.cons.injEq] at hu
    obtain ⟨-, hu2⟩ := hu
    cases m with
    | nil => exact hmne rfl
    | cons m0 m'' =>
      simp only [List.cons_append, List.cons.injEq] at hu2
      have : isWordChar lb = true := hu2.1 ▸ hmw m0 (by simp)
      exact absurd this (by decide)
  rw [pyReplace_varPat_step C rep lb _ h0, pyReplace_varPat_step C rep lb _ h1,
    pyReplace_word_skip C rep m hmw t]

theorem varPat_no_straddle (C B : PyStr) (hCw : ∀ c ∈ C, isWordChar c) (hCne : C ≠ [])
    (a : Char) (x' y : PyStr)
    (h : (varPat C).isPrefixOf ((a :: x') ++ (varPat B ++ y)) = true) :
    (varPat C).length ≤ (a :: x').length := by
  by_contra hlt
  push_neg at hlt
  obtain ⟨z, hz⟩ := (isPrefixOf_iff _ _).mp h
  set x : PyStr := a :: x' with hxdef
  have hxtake : x = (varPat C).take x.length := by
    have h1 : (x ++ (varPat B ++ y)).take x.length = x := List.take_left ..
    have h2 : (varPat C ++ z).take x.length = (varPat C).take x.length := by
      rw [List.take_append_eq_append_take,
        Nat.sub_eq_zero_of_le (le_of_lt hlt), List.take_zero, List.append_nil]
    rw [hz] at h1
    rw [h2] at h1
    exact h1.symm
  have hsplit : varPat C = x ++ (varPat C).drop x.length := by
    conv_lhs => rw [← List.take_append_drop x.length (varPat C)]
    rw [← hxtake]
  have hdne : (varPat C).drop x.length ≠ [] := by
    rw [Ne, List.drop_eq_nil_iff]
    omega
  have hcancel : varPat B ++ y = (varPat C).drop x.length ++ z := by
    have hstep : x ++ (varPat B ++ y) = x ++ ((varPat C).drop x.length ++ z) :=
      calc x ++ (varPat B ++ y) = varPat C ++ z := hz
        _ = (x ++ (varPat C).drop x.length) ++ z := by rw [← hsplit]
        _ = x ++ ((varPat C).drop x.length ++ z) := by rw [List.append_assoc]
    exact List.append_cancel_left hstep
  cases hx' : x' with
  | nil =>
    have hxlen : x.length = 1 := by simp [hxdef, hx']
    rw [hxlen] at hcancel
    have hd1 : (varPat C).drop 1 = lb :: (C ++ [rb, rb]) := by simp [varPat]
    rw [hd1] at hcancel
    cases C with
    | nil => exact hCne rfl
    | cons c0 C' =>
      simp only [varPat, List.cons_append, List.cons.injEq, List.append_assoc] at hcancel
      have : isWordChar lb = true := hcancel.2.1 ▸ hCw c0 (by simp)
      exact absurd this (by decide)
  | cons b x'' =>
    have hxlen : x.length = x''.length + 2 := by simp [hxdef, hx']
    have hd2 : (varPat C).drop x.length = (C ++ [rb, rb]).drop x''.length := by
      rw [hxlen]
      simp [varPat, List.drop]
    rw [hd2] at hcancel
    cases hdd : (C ++ [rb, rb]).drop x''.length with
    | nil =>
      rw [hd2, hdd] at hdne
      exact hdne rfl
    | cons d0 d' =>
      have hd0mem : d0 ∈ C ++ [rb, rb] := List.drop_subset _ _ (hdd ▸ List.mem_cons_self d0 d')
      have hd0lb : d0 = lb := by
        rw [hdd] at hcancel
        simp only [varPat, List.cons_append, List.cons.injEq] at hcancel
        exact hcancel.1.symm
      rw [List.mem_append] at hd0mem
      cases hd0mem with
      | inl hmem =>
        have : isWordChar lb = true := hd0lb ▸ hCw d0 hmem
        exact absurd this (by decide)
      | inr hmem =>
        have hd0rb : d0 = rb := by
          rcases (by simpa using hmem : d0 = rb ∨ d0 = rb) with h' | h' <;> exact h'
        rw [hd0lb] at hd0rb
        exact absurd hd0rb (by decide)

theorem subStr_pyReplace_of_ne (C B : PyStr) (hC : wordName C) (hB : wordName B)
    (hne : C ≠ B) (rep : PyStr) :
    ∀ (k : Nat) (s : PyStr), s.length ≤ k → SubStr (varPat B) s →
      SubStr (varPat B) (pyReplace (varPat C) rep s) := by
  intro k
  induction k with
  | zero =>
    intro s hs hsub
    obtain ⟨x, y, rfl⟩ := hsub
    simp [varPat] at hs
  | succ k ih =>
    intro s hs hsub
    obtain ⟨x, y, rfl⟩ := hsub
    cases x with
    | nil =>
      have hsh : [] ++ (varPat B ++ y) = lb :: lb :: (B ++ rb :: rb :: y) := by simp [varPat]
      rw [hsh, pyReplace_token_skip C B rep y hC.2 hB.2 hB.1 hne]
      exact ⟨[], pyReplace (varPat C) rep y, by simp [varPat]⟩
    | cons a x' =>
      have hshape : (a :: x') ++ (varPat B ++ y) = a :: (x' ++ (varPat B ++ y)) := by simp
      rw [hshape]
      by_cases hm : (varPat C).isPrefixOf (a :: (x' ++ (varPat B ++ y))) = true
      · have hpl : (varPat C).length ≤ (a :: x').length :=
          varPat_no_straddle C B hC.2 hC.1 a x' y (by rw [hshape]; exact hm)
        rw [pyReplace_varPat_pos C rep a _ hm]
        have hdrop : (a :: (x' ++ (varPat B ++ y))).drop (varPat C).length =
            (a :: x').drop (varPat C).length ++ (varPat B ++ y) := by
          rw [← hshape, List.drop_append_eq_append_drop,
            Nat.sub_eq_zero_of_le hpl, List.drop_zero]
        rw [hdrop]
        apply subStr_append_left
        apply ih
        · have h1 : (a :: (x' ++ (varPat B ++ y))).length ≤ k + 1 := hs
          have h2 : ((a :: x').drop (varPat C).length ++ (varPat B ++ y)).length ≤
              (a :: (x' ++ (varPat B ++ y))).length - (varPat C).length := by
            rw [← hdrop, List.length_drop]
          have h3 : 1 ≤ (varPat C).length := by simp [varPat]
          omega
        · exact ⟨(a :: x').drop (varPat C).length, y, by simp⟩
      · rw [pyReplace_varPat_step C rep a _ hm]
        apply subStr_cons_of
        apply ih
        · have : (a :: (x' ++ (varPat B ++ y))).length ≤ k + 1 := hs
          simp only [List.length_cons] at this
          omega
        · exact ⟨x', y, rfl⟩

theorem subStr_rep_pyReplace (C rep : PyStr) :
    ∀ s : PyStr, SubStr (varPat C) s → SubStr rep (pyReplace (varPat C) rep s) := by
  intro s
  induction s with
  | nil =>
    intro h
    obtain ⟨x, y, hx⟩ := h
    simp [varPat] at hx
  | cons c cs ih =>
    intro h
    by_cases hm : (varPat C).isPrefixOf (c :: cs) = true
    · rw [pyReplace_varPat_pos C rep c cs hm]
      exact ⟨[], _, rfl⟩
    · obtain ⟨x, y, hxy⟩ := h
      cases x with
      | nil =>
        exfalso
        apply hm
        rw [isPrefixOf_iff]
        exact ⟨y, by simpa using hxy⟩
      | cons a x' =>
        simp only [List.cons_append, List.cons.injEq] at hxy
        obtain ⟨rfl, rfl⟩ := hxy
        rw [pyReplace_varPat_step C rep _ _ hm]
        exact subStr_cons_of _ _ _ (ih ⟨x', y, rfl⟩)

theorem subStr_replaceInString_of_not_key (B : PyStr) (hB : wordName B) :
    ∀ (varValues : List (PyStr × PyStr)) (s : PyStr),
      (∀ nv ∈ varValues, wordName nv.1 ∧ nv.1 ≠ B) →
      SubStr (varPat B) s → SubStr (varPat B) (replaceInString varValues s) := by
  intro varValues
  induction varValues with
  | nil => intro s _ h; exact h
  | cons nv rest ih =>
    intro s hkeys h
    have hnv := hkeys nv (by simp)
    show SubStr (varPat B) (replaceInString rest (pyReplace (varPat nv.1) nv.2 s))
    apply ih
    · intro nv' hnv'
      exact hkeys nv' (by simp [hnv'])
    · exact subStr_pyReplace_of_ne nv.1 B hnv.1 hB hnv.2 nv.2 s.length s le_rfl h

theorem dictGet_split (A vA : PyStr) :
    ∀ varValues : List (PyStr × PyStr), dictGet A varValues = some vA →
      ∃ pre post, varValues = pre ++ (A, vA) :: post ∧ ∀ nv ∈ pre, nv.1 ≠ A := by
  intro varValues
  induction varValues with
  | nil => intro h; simp [dictGet] at h
  | cons kv rest ih =>
    intro h
    obtain ⟨k, v⟩ := kv
    by_cases hk : k = A
    · subst hk
      rw [dictGet, if_pos rfl] at h
      obtain rfl : v = vA := by simpa using h
      exact ⟨[], rest, by simp⟩
    · rw [dictGet, if_neg hk] at h
      obtain ⟨pre, post, hsplit, hpre⟩ := ih h
      refine ⟨(k, v) :: pre, post, by simp [hsplit], ?_⟩
      intro nv hnv
      rw [List.mem_cons] at hnv
      rcases hnv with rfl | h'
      · simpa using hk
      · exact hpre nv h'

theorem replaceInString_append_split (v1 v2 : List (PyStr × PyStr)) (s : PyStr) :
    replaceInString (v1 ++ v2) s = replaceInString v2 (replaceInString v1 s) := by
  simp [replaceInString, List.foldl_append]

theorem tokenWF_mono {K K' : List PyStr} (hsub : ∀ k ∈ K, k ∈ K') :
    ∀ {s : PyStr}, TokenWF K s → TokenWF K' s := by
  intro s h
  induction h with
  | nil => exact .nil
  | plain h1 h2 _ ih => exact .plain h1 h2 ih
  | tok hmem hne hw _ ih => exact .tok (hsub _ hmem) hne hw ih

theorem tokenWF_braceFree_append (keys : List PyStr) (t : PyStr) (h : TokenWF keys t) :
    ∀ v : PyStr, braceFree v → TokenWF keys (v ++ t) := by
  intro v
  induction v with
  | nil => intro _; simpa using h
  | cons c v' ih =>
    intro hv
    exact TokenWF.plain (hv c (by simp)).1 (hv c (by simp)).2 (ih (fun d hd => hv d (by simp [hd])))

theorem tokenWF_pyReplace (keys : List PyStr) (s : PyStr) (h : TokenWF keys s) (n v : PyStr)
    (hn : wordName n) (hv : braceFree v) :
    TokenWF (keys.filter (fun k => decide (k ≠ n))) (pyReplace (varPat n) v s) := by
  induction h with
  | nil =>
    have e : pyReplace (varPat n) v [] = [] := rfl
    rw [e]
    exact .nil
  | plain h1 h2 _ ih =>
    rename_i c s' _
    rw [pyReplace_varPat_cons_ne n v c s' h1]
    exact .plain h1 h2 ih
  | tok hmem hne hw _ ih =>
    rename_i m s' _
    by_cases hmn : m = n
    · subst hmn
      rw [pyReplace_token_hit m v s']
      exact tokenWF_braceFree_append _ _ ih v hv
    · rw [pyReplace_token_skip n m v s' hn.2 hw hne (fun he => hmn he.symm)]
      refine .tok ?_ hne hw ih
      rw [List.mem_filter]
      exact ⟨hmem, by simp [hmn]⟩

theorem tokenWF_fold :
    ∀ (varValues : List (PyStr × PyStr)) (keys : List PyStr) (s : PyStr),
      TokenWF keys s →
      (∀ nv ∈ varValues, wordName nv.1 ∧ braceFree nv.2) →
      (∀ k ∈ keys, k ∈ varValues.map Prod.fst) →
      TokenWF [] (replaceInString varValues s) := by
  intro varValues
  induction varValues with
  | nil =>
    intro keys s h _ hkeys
    have hfalse : ∀ k ∈ keys, False := by simpa using hkeys
    exact tokenWF_mono (fun k hk => (hfalse k hk).elim) h
  | cons nv rest ih =>
    intro keys s h hvars hkeys
    have hnv := hvars nv (by simp)
    show TokenWF [] (replaceInString rest (pyReplace (varPat nv.1) nv.2 s))
    apply ih (keys.filter (fun k => decide (k ≠ nv.1)))
    · exact tokenWF_pyReplace keys s h nv.1 nv.2 hnv.1 hnv.2
    · intro nv' h'
      exact hvars nv' (by simp [h'])
    · intro k hk
      rw [List.mem_filter] at hk
      have hkne : k ≠ nv.1 := by simpa using hk.2
      have := hkeys k hk.1
      simp only [List.map_cons, List.mem_cons] at this
      rcases this with h'' | h''
      · exact absurd h'' hkne
      · exact h''

theorem braceFree_of_tokenWF_nil : ∀ {s : PyStr}, TokenWF [] s → braceFree s := by
  intro s h
  induction h with
  | nil => intro c hc; simp at hc
  | plain h1 h2 _ ih =>
    intro c hc
    rcases List.mem_cons.mp hc with rfl | hc'
    · exact ⟨h1, h2⟩
    · exact ih c hc'
  | tok hmem _ _ _ _ => exact absurd hmem (by simp)

theorem scanString_eq_of_scan_nil (acc : List PyStr) (s : PyStr) (h : scanTokens s = []) :
    scanString acc s = acc := by
  simp [scanString, h]

theorem scanTokens_replaceInString_nil (varValues : List (PyStr × PyStr)) (s : PyStr)
    (hs : TokenWF (varValues.map Prod.fst) s)
    (hvars : ∀ nv ∈ varValues, wordName nv.1 ∧ braceFree nv.2) :
    scanTokens (replaceInString varValues s) = [] := by
  apply scanTokens_eq_nil_of_no_lb
  intro c hc
  exact (braceFree_of_tokenWF_nil
    (tokenWF_fold varValues (varValues.map Prod.fst) s hs hvars (fun k hk => hk)) c hc).1

theorem foldl_fix {α β : Type} (f : β → α → β) (l : List α)
    (h : ∀ x ∈ l, ∀ a, f a x = a) : ∀ a, l.foldl f a = a := by
  induction l with
  | nil => intro a; rfl
  | cons x xs ih =>
    intro a
    rw [List.foldl_cons, h x (by simp) a]
    exact ih (fun y hy => h y (by simp [hy])) a

theorem scanCriterion_subst (varValues : List (PyStr × PyStr)) (cr : Criterion)
    (hvars : ∀ nv ∈ varValues, wordName nv.1 ∧ braceFree nv.2)
    (hcr : criterionWF (varValues.map Prod.fst) cr) :
    ∀ acc, scanCriterion acc (substCriterion varValues cr) = acc := by
  have hrepl : ∀ t : PyStr, TokenWF (varValues.map Prod.fst) t →
      ∀ a, scanString a (replaceInString varValues t) = a := fun t ht a =>
    scanString_eq_of_scan_nil a _ (scanTokens_replaceInString_nil varValues t ht hvars)
  intro acc
  obtain ⟨hf, hop, hval⟩ := hcr
  cases hv : cr.value with
  | s v =>
    have hval' : TokenWF (varValues.map Prod.fst) v := by rw [hv] at hval; exact hval
    simp only [substCriterion, hv, scanCriterion]
    rw [hrepl _ hf, hrepl _ hop, hrepl _ hval']
  | arr vs =>
    have hval' : ∀ v ∈ vs, TokenWF (varValues.map Prod.fst) v := by rw [hv] at hval; exact hval
    simp only [substCriterion, hv, scanCriterion]
    rw [hrepl _ hf, hrepl _ hop]
    refine foldl_fix _ _ (fun x hx a => ?_) acc
    obtain ⟨v, hvmem, rfl⟩ := List.mem_map.mp hx
    exact hrepl v (hval' v hvmem) a

theorem scanPermission_subst (varValues : List (PyStr × PyStr)) (p : TemplatePermission)
    (hvars : ∀ nv ∈ varValues, wordName nv.1 ∧ braceFree nv.2)
    (hp : TokenWF (varValues.map Prod.fst) p.action ∧ TokenWF (varValues.map Prod.fst) p.type) :
    ∀ acc, scanPermission acc (substPermission varValues p) = acc := by
  have hrepl : ∀ t : PyStr, TokenWF (varValues.map Prod.fst) t →
      ∀ a, scanString a (replaceInString varValues t) = a := fun t ht a =>
    scanString_eq_of_scan_nil a _ (scanTokens_replaceInString_nil varValues t ht hvars)
  intro acc
  simp only [substPermission, scanPermission]
  rw [hrepl _ hp.1, hrepl _ hp.2]

theorem scanConstraint_subst (varValues : List (PyStr × PyStr)) (c : ConstraintDict)
    (hvars : ∀ nv ∈ varValues, wordName nv.1 ∧ braceFree nv.2)
    (hc : constraintWF (varValues.map Prod.fst) c) :
    ∀ acc, scanConstraint acc (substConstraint varValues c) = acc := by
  have hrepl : ∀ t : PyStr, TokenWF (varValues.map Prod.fst) t →
      ∀ a, scanString a (replaceInString varValues t) = a := fun t ht a =>
    scanString_eq_of_scan_nil a _ (scanTokens_replaceInString_nil varValues t ht hvars)
  intro acc
  obtain ⟨hn, hd, ho, hca, hco, hgp⟩ := hc
  simp only [substConstraint, scanConstraint]
  rw [hrepl _ hn, hrepl _ hd, hrepl _ ho]
  rw [foldl_fix _ _ (fun x hx a => by
    obtain ⟨cr, hcrmem, rfl⟩ := List.mem_map.mp hx
    exact scanCriterion_subst varValues cr hvars (hca cr hcrmem) a) acc]
  rw [foldl_fix _ _ (fun x hx a => by
    obtain ⟨cr, hcrmem, rfl⟩ := List.mem_map.mp hx
    exact scanCriterion_subst varValues cr hvars (hco cr hcrmem) a) acc]
  exact foldl_fix _ _ (fun x hx a => by
    obtain ⟨p, hpmem, rfl⟩ := List.mem_map.mp hx
    exact scanPermission_subst varValues p hvars (hgp p hpmem) a) acc

theorem groupItemsLoop_eq (base : DenormItem) (cid : PyStr) :
    ∀ (ps : List ApiGroupPerm) (seen : List PyStr),
      groupItemsLoop base cid ps seen =
        (firstOccFrom seen (ps.filterMap (fun p => pyTruthy p.groupId))).map
          (fun g => { base with constraintId := cid ++ gSep ++ g, groupId := some g }) := by
  intro ps
  induction ps with
  | nil => intro seen; rfl
  | cons p rest ih =>
    intro seen
    cases ht : pyTruthy p.groupId with
    | none => simp only [groupItemsLoop, ht, List.filterMap_cons, ih]
    | some g =>
      simp only [groupItemsLoop, ht, List.filterMap_cons]
      by_cases hmem : g ∈ seen
      · rw [if_pos hmem]
        simp only [firstOccFrom, if_pos hmem]
        exact ih seen
      · rw [if_neg hmem]
        simp only [firstOccFrom, if_neg hmem, List.map_cons]
        rw [ih (seen ++ [g])]

theorem userItemsLoop_eq (base : DenormItem) (cid : PyStr) :
    ∀ (ps : List ApiUserPerm) (seen : List PyStr),
      userItemsLoop base cid ps seen =
        (firstOccFrom seen (ps.filterMap (fun p => pyTruthy p.userId))).map
          (fun u => { base with constraintId := cid ++ uSep ++ u, userId := some u }) := by
  intro ps
  induction ps with
  | nil => intro seen; rfl
  | cons p rest ih =>
    intro seen
    cases ht : pyTruthy p.userId with
    | none => simp only [userItemsLoop, ht, List.filterMap_cons, ih]
    | some u =>
      simp only [userItemsLoop, ht, List.filterMap_cons]
      by_cases hmem : u ∈ seen
      · rw [if_pos hmem]
        simp only [firstOccFrom, if_pos hmem]
        exact ih seen
      · rw [if_neg hmem]
        simp only [firstOccFrom, if_neg hmem, List.map_cons]
        rw [ih (seen ++ [u])]

theorem transformToDenormalized_eq (cd : ConstraintData) (now : PyStr) :
    transformToDenormalized cd now =
      (if (firstOcc (cd.groupPermissions.filterMap (fun p => pyTruthy p.groupId))).map
            (mkGroupItem cd now) ++
          (firstOcc (cd.userPermissions.filterMap (fun p => pyTruthy p.userId))).map
            (mkUserItem cd now) = []
        then [{ baseItem cd now with constraintId := cd.identifier }]
        else (firstOcc (cd.groupPermissions.filterMap (fun p => pyTruthy p.groupId))).map
            (mkGroupItem cd now) ++
          (firstOcc (cd.userPermissions.filterMap (fun p => pyTruthy p.userId))).map
            (mkUserItem cd now)) := by
  simp only [transformToDenormalized, groupItemsLoop_eq, userItemsLoop_eq]
  rfl

theorem firstOccFrom_mem (l : List PyStr) :
    ∀ (seen : List PyStr) (x : PyStr), x ∈ firstOccFrom seen l ↔ x ∈ l ∧ x ∉ seen := by
  induction l with
  | nil => intro seen x; simp [firstOccFrom]
  | cons y ys ih =>
    intro seen x
    by_cases hy : y ∈ seen
    · simp only [firstOccFrom, if_pos hy]
      rw [ih]
      constructor
      · rintro ⟨h1, h2⟩
        exact ⟨by simp [h1], h2⟩
      · rintro ⟨h1, h2⟩
        rcases List.mem_cons.mp h1 with rfl | h1'
        · exact absurd hy h2
        · exact ⟨h1', h2⟩
    · simp only [firstOccFrom, if_neg hy]
      constructor
      · intro hx
        rcases List.mem_cons.mp hx with rfl | hx'
        · exact ⟨by simp, hy⟩
        · have h3 := (ih (seen ++ [y]) x).mp hx'
          exact ⟨by simp [h3.1], fun hxs => h3.2 (by simp [hxs])⟩
      · rintro ⟨h1, h2⟩
        rcases List.mem_cons.mp h1 with rfl | h1'
        · exact List.mem_cons_self _ _
        · by_cases hxy : x = y
          · subst hxy
            exact List.mem_cons_self _ _
          · exact List.mem_cons_of_mem _ ((ih (seen ++ [y]) x).mpr ⟨h1', by simp [h2, hxy]⟩)

theorem firstOccFrom_nodup (l : List PyStr) : ∀ seen : List PyStr, (firstOccFrom seen l).Nodup := by
  induction l with
  | nil => intro seen; simp [firstOccFrom]
  | cons y ys ih =>
    intro seen
    by_cases hy : y ∈ seen
    · simp only [firstOccFrom, if_pos hy]
      exact ih seen
    · simp only [firstOccFrom, if_neg hy]
      rw [List.nodup_cons]
      refine ⟨?_, ih (seen ++ [y])⟩
      intro hmem
      exact ((firstOccFrom_mem ys (seen ++ [y]) y).mp hmem).2 (by simp)

theorem firstOcc_mem (l : List PyStr) (x : PyStr) : x ∈ firstOcc l ↔ x ∈ l := by
  rw [firstOcc, firstOccFrom_mem]
  simp

theorem firstOcc_nodup (l : List PyStr) : (firstOcc l).Nodup := firstOccFrom_nodup l []

theorem firstOcc_eq_nil_iff (l : List PyStr) : firstOcc l = [] ↔ l = [] := by
  constructor
  · intro h
    cases l with
    | nil => rfl
    | cons y ys =>
      have : y ∈ firstOcc (y :: ys) := (firstOcc_mem _ _).mpr (by simp)
      rw [h] at this
      simp at this
  · rintro rfl
    rfl

theorem gkey_inj (cid : PyStr) : Function.Injective (fun g : PyStr => cid ++ gSep ++ g) := by
  intro g1 g2 h
  simp only [List.append_assoc] at h
  exact List.append_cancel_left (List.append_cancel_left h)

theorem ukey_inj (cid : PyStr) : Function.Injective (fun u : PyStr => cid ++ uSep ++ u) := by
  intro u1 u2 h
  simp only [List.append_assoc] at h
  exact List.append_cancel_left (List.append_cancel_left h)

theorem gkey_ne_ukey (cid g u : PyStr) : cid ++ gSep ++ g ≠ cid ++ uSep ++ u := by
  intro h
  rw [List.append_assoc, List.append_assoc] at h
  have h2 := List.append_cancel_left h
  rw [show gSep = ['#', 'g', 'r', 'o', 'u', 'p', '#'] from rfl,
    show uSep = ['#', 'u', 's', 'e', 'r', '#'] from rfl] at h2
  simp at h2

theorem key_ne_bare (cid sep g : PyStr) (hsep : sep ≠ []) : cid ++ sep ++ g ≠ cid := by
  intro h
  have hlen := congrArg List.length h
  simp only [List.length_append] at hlen
  have hz : sep.length = 0 := by omega
  exact hsep (List.length_eq_zero.mp hz)

theorem keys_nodup (cid : PyStr) (gl ul : List PyStr) :
    ((firstOcc gl).map (fun g => cid ++ gSep ++ g) ++
      (firstOcc ul).map (fun u => cid ++ uSep ++ u)).Nodup := by
  rw [List.nodup_append]
  refine ⟨(firstOcc_nodup gl).map (gkey_inj cid), (firstOcc_nodup ul).map (ukey_inj cid), ?_⟩
  intro a ha hb
  obtain ⟨g, -, rfl⟩ := List.mem_map.mp ha
  obtain ⟨u, -, hgu⟩ := List.mem_map.mp hb
  exact gkey_ne_ukey cid g u hgu.symm

theorem transform_keys (cd : ConstraintData) (now : PyStr) :
    (transformToDenormalized cd now).map (fun it => it.constraintId) =
      if firstOcc (cd.groupPermissions.filterMap (fun p => pyTruthy p.groupId)) = [] ∧
          firstOcc (cd.userPermissions.filterMap (fun p => pyTruthy p.userId)) = []
        then [cd.identifier]
        else (firstOcc (cd.groupPermissions.filterMap (fun p => pyTruthy p.groupId))).map
            (fun g => cd.identifier ++ gSep ++ g) ++
          (firstOcc (cd.userPermissions.filterMap (fun p => pyTruthy p.userId))).map
            (fun u => cd.identifier ++ uSep ++ u) := by
  rw [transformToDenormalized_eq]
  by_cases h : firstOcc (cd.groupPermissions.filterMap (fun p => pyTruthy p.groupId)) = [] ∧
      firstOcc (cd.userPermissions.filterMap (fun p => pyTruthy p.userId)) = []
  · rw [if_pos (by simp [h.1, h.2]), if_pos h]
    rfl
  · have hne : ¬((firstOcc (cd.groupPermissions.filterMap (fun p => pyTruthy p.groupId))).map
        (mkGroupItem cd now) ++
        (firstOcc (cd.userPermissions.filterMap (fun p => pyTruthy p.userId))).map
        (mkUserItem cd now) = []) := by
      simp only [List.append_eq_nil, List.map_eq_nil_iff]
      exact h
    rw [if_neg hne, if_neg h]
    simp [List.map_append, List.map_map, Function.comp_def, mkGroupItem, mkUserItem,
      List.append_assoc]

/-- C1. For every constraint whose permission entries all carry a present,
nonempty grantee id, denormalization emits exactly one storage item per
distinct groupId appearing in groupPermissions (keyed
`constraintId#group#groupId`) and exactly one per distinct userId (keyed
`constraintId#user#userId`): the key list has no duplicates, a grantee key
is present exactly when the grantee id appears, and (when there is any
grantee) the key list is exactly the first-occurrence deduplication of the
group ids followed by that of the user ids. -/
theorem c1_fanout_unique (cd : ConstraintData) (now : PyStr)
    (hg : ∀ p ∈ cd.groupPermissions, p.groupId ≠ none ∧ p.groupId ≠ some [])
    (hu : ∀ p ∈ cd.userPermissions, p.userId ≠ none ∧ p.userId ≠ some []) :
    ((transformToDenormalized cd now).map (fun it => it.constraintId)).Nodup ∧
    (∀ g, g ∈ cd.groupPermissions.filterMap (fun p => p.groupId) ↔
      (cd.identifier ++ gSep ++ g) ∈
        (transformToDenormalized cd now).map (fun it => it.constraintId)) ∧
    (∀ u, u ∈ cd.userPermissions.filterMap (fun p => p.userId) ↔
      (cd.identifier ++ uSep ++ u) ∈
        (transformToDenormalized cd now).map (fun it => it.constraintId)) ∧
    (cd.groupPermissions ≠ [] ∨ cd.userPermissions ≠ [] →
      (transformToDenormalized cd now).map (fun it => it.constraintId) =
        (firstOcc (cd.groupPermissions.filterMap (fun p => p.groupId))).map
          (fun g => cd.identifier ++ gSep ++ g) ++
        (firstOcc (cd.userPermissions.filterMap (fun p => p.userId))).map
          (fun u => cd.identifier ++ uSep ++ u)) := by
  have hfg : cd.groupPermissions.filterMap (fun p => pyTruthy p.groupId) =
      cd.groupPermissions.filterMap (fun p => p.groupId) := by
    apply List.filterMap_congr
    intro p hp
    obtain ⟨h1, h2⟩ := hg p hp
    cases hpg : p.groupId with
    | none => exact absurd hpg h1
    | some g =>
      have hgne : g ≠ [] := by
        intro hge
        exact h2 (by rw [hpg, hge])
      simp [pyTruthy, hgne]
  have hfu : cd.userPermissions.filterMap (fun p => pyTruthy p.userId) =
      cd.userPermissions.filterMap (fun p => p.userId) := by
    apply List.filterMap_congr
    intro p hp
    obtain ⟨h1, h2⟩ := hu p hp
    cases hpu : p.userId with
    | none => exact absurd hpu h1
    | some u =>
      have hune : u ≠ [] := by
        intro hue
        exact h2 (by rw [hpu, hue])
      simp [pyTruthy, hune]
  have hkeys := transform_keys cd now
  rw [hfg, hfu] at hkeys
  refine ⟨?_, ?_, ?_, ?_⟩
  · rw [hkeys]
    by_cases h : firstOcc (cd.groupPermissions.filterMap (fun p => p.groupId)) = [] ∧
        firstOcc (cd.userPermissions.filterMap (fun p => p.userId)) = []
    · rw [if_pos h]
      simp
    · rw [if_neg h]
      exact keys_nodup cd.identifier _ _
  · intro g
    rw [hkeys]
    by_cases h : firstOcc (cd.groupPermissions.filterMap (fun p => p.groupId)) = [] ∧
        firstOcc (cd.userPermissions.filterMap (fun p => p.userId)) = []
    · rw [if_pos h]
      have hgl : cd.groupPermissions.filterMap (fun p => p.groupId) = [] :=
        (firstOcc_eq_nil_iff _).mp h.1
      rw [hgl]
      constructor
      · intro hmem
        simp at hmem
      · intro hmem
        exact absurd (List.mem_singleton.mp hmem) (key_ne_bare cd.identifier gSep g (by decide))
    · rw [if_neg h, List.mem_append]
      constructor
      · intro hmem
        exact Or.inl (List.mem_map_of_mem _ ((firstOcc_mem _ g).mpr hmem))
      · rintro (hmem | hmem)
        · obtain ⟨g', hg', heq⟩ := List.mem_map.mp hmem
          obtain rfl : g' = g := gkey_inj cd.identifier heq
          exact (firstOcc_mem _ _).mp hg'
        · obtain ⟨u, -, hequ⟩ := List.mem_map.mp hmem
          exact (gkey_ne_ukey cd.identifier g u hequ.symm).elim
  · intro u
    rw [hkeys]
    by_cases h : firstOcc (cd.groupPermissions.filterMap (fun p => p.groupId)) = [] ∧
        firstOcc (cd.userPermissions.filterMap (fun p => p.userId)) = []
    · rw [if_pos h]
      have hul : cd.userPermissions.filterMap (fun p => p.userId) = [] :=
        (firstOcc_eq_nil_iff _).mp h.2
      rw [hul]
      constructor
      · intro hmem
        simp at hmem
      · intro hmem
        exact absurd (List.mem_singleton.mp hmem) (key_ne_bare cd.identifier uSep u (by decide))
    · rw [if_neg h, List.mem_append]
      constructor
      · intro hmem
        exact Or.inr (List.mem_map_of_mem _ ((firstOcc_mem _ u).mpr hmem))
      · rintro (hmem | hmem)
        · obtain ⟨g, -, heqg⟩ := List.mem_map.mp hmem
          exact (gkey_ne_ukey cd.identifier g u heqg).elim
        · obtain ⟨u', hu', hequ⟩ := List.mem_map.mp hmem
          obtain rfl : u' = u := ukey_inj cd.identifier hequ
          exact (firstOcc_mem _ _).mp hu'
  · intro hne
    rw [hkeys]
    rw [if_neg ?_]
    rcases hne with hne | hne
    · cases hp : cd.groupPermissions with
      | nil => exact absurd hp hne
      | cons p ps =>
        obtain ⟨h1, h2⟩ := hg p (by simp [hp])
        cases hpg : p.groupId with
        | none => exact absurd hpg h1
        | some g =>
          intro hcon
          have hgmem : g ∈ cd.groupPermissions.filterMap (fun p => p.groupId) :=
            List.mem_filterMap.mpr ⟨p, by simp [hp], hpg⟩
          rw [hp, (firstOcc_eq_nil_iff _).mp hcon.1] at hgmem
          simp at hgmem
    · cases hp : cd.userPermissions with
      | nil => exact absurd hp hne
      | cons p ps =>
        obtain ⟨h1, h2⟩ := hu p (by simp [hp])
        cases hpu : p.userId with
        | none => exact absurd hpu h1
        | some u =>
          intro hcon
          have humem : u ∈ cd.userPermissions.filterMap (fun p => p.userId) :=
            List.mem_filterMap.mpr ⟨p, by simp [hp], hpu⟩
          rw [hp, (firstOcc_eq_nil_iff _).mp hcon.2] at humem
          simp at humem

/-- Witness for C1, the example of the claim: groups A, A, B and user U
yield exactly the three keys `cid#group#A`, `cid#group#B`, `cid#user#U`. -/
theorem c1_fanout_unique_witness :
    ((transformToDenormalized c1cd sampleNow).map (fun it => it.constraintId)).Nodup ∧
    (transformToDenormalized c1cd sampleNow).map (fun it => it.constraintId) =
      ["cid#group#A".data, "cid#group#B".data, "cid#user#U".data] := by
  have h := c1_fanout_unique c1cd sampleNow (by decide) (by decide)
  refine ⟨h.1, ?_⟩
  rw [h.2.2.2 (Or.inl (by decide))]
  decide

/-- C2. A constraint with empty group and user permission lists yields
exactly one denormalized item, keyed by the bare constraintId. -/
theorem c2_no_grantee_fallback (cd : ConstraintData) (now : PyStr)
    (hg : cd.groupPermissions = []) (hu : cd.userPermissions = []) :
    transformToDenormalized cd now =
      [{ baseItem cd now with constraintId := cd.identifier }] := by
  rw [transformToDenormalized_eq, hg, hu]
  simp [firstOcc, firstOccFrom]

/-- Witness for C2 at a concrete grantee-free constraint. -/
theorem c2_no_grantee_fallback_witness :
    c2cd.groupPermissions = [] ∧ c2cd.userPermissions = [] ∧
    transformToDenormalized c2cd sampleNow =
      [{ baseItem c2cd sampleNow with constraintId := c2cd.identifier }] :=
  ⟨rfl, rfl, c2_no_grantee_fallback c2cd sampleNow rfl rfl⟩

/-- C10 (implicit). A permission entry whose grantee id is absent or empty
contributes no denormalized item: the number of items equals
`max 1 (distinct non-empty groupIds + distinct non-empty userIds)`, and a
constraint whose entries all have absent or empty grantee ids yields
exactly the single base item keyed by the bare constraintId. -/
theorem c10_empty_grantee_filter (cd : ConstraintData) (now : PyStr) :
    (transformToDenormalized cd now).length =
      max 1 ((firstOcc (cd.groupPermissions.filterMap (fun p => pyTruthy p.groupId))).length +
        (firstOcc (cd.userPermissions.filterMap (fun p => pyTruthy p.userId))).length) ∧
    (cd.groupPermissions.filterMap (fun p => pyTruthy p.groupId) = [] →
      cd.userPermissions.filterMap (fun p => pyTruthy p.userId) = [] →
      transformToDenormalized cd now =
        [{ baseItem cd now with constraintId := cd.identifier }]) := by
  constructor
  · rw [transformToDenormalized_eq]
    by_cases h : (firstOcc (cd.groupPermissions.filterMap (fun p => pyTruthy p.groupId))).map
        (mkGroupItem cd now) ++
        (firstOcc (cd.userPermissions.filterMap (fun p => pyTruthy p.userId))).map
        (mkUserItem cd now) = []
    · rw [if_pos h]
      obtain ⟨h1, h2⟩ := List.append_eq_nil.mp h
      rw [List.map_eq_nil_iff.mp h1, List.map_eq_nil_iff.mp h2]
      simp
    · rw [if_neg h]
      simp only [List.length_append, List.length_map]
      rcases Nat.eq_zero_or_pos
          ((firstOcc (cd.groupPermissions.filterMap (fun p => pyTruthy p.groupId))).length +
            (firstOcc (cd.userPermissions.filterMap (fun p => pyTruthy p.userId))).length) with
        hz | hp
      · exfalso
        apply h
        rw [List.length_eq_zero.mp (by omega : (firstOcc
            (cd.groupPermissions.filterMap (fun p => pyTruthy p.groupId))).length = 0),
          List.length_eq_zero.mp (by omega : (firstOcc
            (cd.userPermissions.filterMap (fun p => pyTruthy p.userId))).length = 0)]
        simp
      · rw [Nat.max_eq_right hp]
  · intro hgl hul
    rw [transformToDenormalized_eq, hgl, hul]
    simp [firstOcc, firstOccFrom]

/-- Witness for C10 at a constraint whose grantee ids are empty or absent. -/
theorem c10_empty_grantee_filter_witness :
    (transformToDenormalized c10cd sampleNow).length =
      max 1 ((firstOcc (c10cd.groupPermissions.filterMap (fun p => pyTruthy p.groupId))).length +
        (firstOcc (c10cd.userPermissions.filterMap (fun p => pyTruthy p.userId))).length) ∧
    transformToDenormalized c10cd sampleNow =
      [{ baseItem c10cd sampleNow with constraintId := c10cd.identifier }] :=
  ⟨(c10_empty_grantee_filter c10cd sampleNow).1,
    (c10_empty_grantee_filter c10cd sampleNow).2 (by decide) (by decide)⟩

theorem lexLe_total (a : PyStr) : ∀ b : PyStr, lexLe a b = true ∨ lexLe b a = true := by
  induction a with
  | nil => intro b; exact Or.inl rfl
  | cons c cs ih =>
    intro b
    cases b with
    | nil => exact Or.inr rfl
    | cons d ds =>
      simp only [lexLe]
      rcases Nat.lt_trichotomy c.toNat d.toNat with h | h | h
      · exact Or.inl (by rw [if_pos h])
      · rw [if_neg (by omega), if_neg (by omega), if_neg (by omega), if_neg (by omega)]
        exact ih ds
      · exact Or.inr (by rw [if_pos h])

theorem lexLe_trans (a : PyStr) :
    ∀ b c : PyStr, lexLe a b = true → lexLe b c = true → lexLe a c = true := by
  induction a with
  | nil => intro b c _ _; rfl
  | cons x xs ih =>
    intro b c hab hbc
    cases b with
    | nil => simp [lexLe] at hab
    | cons y ys =>
      cases c with
      | nil => simp [lexLe] at hbc
      | cons z zs =>
        simp only [lexLe] at hab hbc ⊢
        by_cases hxy : x.toNat < y.toNat
        · by_cases hyz : y.toNat < z.toNat
          · rw [if_pos (by omega)]
          · rw [if_neg hyz] at hbc
            by_cases hzy : z.toNat < y.toNat
            · rw [if_pos hzy] at hbc
              exact absurd hbc (by simp)
            · rw [if_pos (by omega)]
        · rw [if_neg hxy] at hab
          by_cases hyx : y.toNat < x.toNat
          · rw [if_pos hyx] at hab
            exact absurd hab (by simp)
          · rw [if_neg hyx] at hab
            by_cases hyz : y.toNat < z.toNat
            · rw [if_pos (by omega)]
            · rw [if_neg hyz] at hbc
              by_cases hzy : z.toNat < y.toNat
              · rw [if_pos hzy] at hbc
                exact absurd hbc (by simp)
              · rw [if_neg hzy] at hbc
                rw [if_neg (by omega), if_neg (by omega)]
                exact ih ys zs hab hbc

theorem insertSorted_perm (x : PyStr) : ∀ l : List PyStr, (insertSorted x l).Perm (x :: l) := by
  intro l
  induction l with
  | nil => exact List.Perm.refl _
  | cons y ys ih =>
    simp only [insertSorted]
    by_cases h : lexLe x y = true
    · rw [if_pos h]
    · rw [if_neg h]
      exact (ih.cons y).trans (List.Perm.swap x y ys)

theorem sortNames_perm (l : List PyStr) : (sortNames l).Perm l := by
  induction l with
  | nil => exact List.Perm.refl _
  | cons x xs ih =>
    exact (insertSorted_perm x (sortNames xs)).trans (ih.cons x)

theorem insertSorted_sorted (x : PyStr) :
    ∀ l : List PyStr, List.Pairwise (fun a b => lexLe a b = true) l →
      List.Pairwise (fun a b => lexLe a b = true) (insertSorted x l) := by
  intro l
  induction l with
  | nil => intro _; simp [insertSorted]
  | cons y ys ih =>
    intro h
    obtain ⟨hy, hys⟩ := List.pairwise_cons.mp h
    simp only [insertSorted]
    by_cases hxy : lexLe x y = true
    · rw [if_pos hxy]
      refine List.pairwise_cons.mpr ⟨?_, h⟩
      intro z hz
      rcases List.mem_cons.mp hz with rfl | hz'
      · exact hxy
      · exact lexLe_trans x y z hxy (hy z hz')
    · rw [if_neg hxy]
      refine List.pairwise_cons.mpr ⟨?_, ih hys⟩
      intro z hz
      have hz2 := (insertSorted_perm x ys).mem_iff.mp hz
      rcases List.mem_cons.mp hz2 with rfl | hz'
      · rcases lexLe_total y z with h' | h'
        · exact h'
        · exact absurd h' hxy
      · exact hy z hz'

theorem sortNames_sorted (l : List PyStr) :
    List.Pairwise (fun a b => lexLe a b = true) (sortNames l) := by
  induction l with
  | nil => simp [sortNames]
  | cons x xs ih => exact insertSorted_sorted x (sortNames xs) ih

/-- C3. When the unreplaced-variable scan of the substituted constraints is
non-empty, the import fails with the `VAMSGeneralErrorResponse` whose
message names every unresolved variable in sorted order, and nothing is
written to storage. -/
theorem c3_unreplaced_fails (templateName : Option PyStr) (varValues : List (PyStr × PyStr))
    (constraints : List ConstraintDict) (tokens : List PyStr) (registry : RegistryState)
    (writeOk : Nat → Bool) (uuidGen : Nat → PyStr) (now : PyStr) (roleName : PyStr)
    (hrn : dictGet roleNameKey varValues = some roleName)
    (hne : findUnreplaced (substituteVariables constraints varValues) ≠ []) :
    importTemplateConstraints templateName varValues constraints tokens registry writeOk uuidGen now =
      (.error (.general (unreplacedMsg (findUnreplaced (substituteVariables constraints varValues)))),
        []) ∧
    (sortNames (findUnreplaced (substituteVariables constraints varValues))).Perm
      (findUnreplaced (substituteVariables constraints varValues)) ∧
    List.Pairwise (fun a b => lexLe a b = true)
      (sortNames (findUnreplaced (substituteVariables constraints varValues))) ∧
    unreplacedMsg (findUnreplaced (substituteVariables constraints varValues)) =
      ("Unreplaced template variables found after substitution: ").data ++
        joinCS (sortNames (findUnreplaced (substituteVariables constraints varValues))) ++
        (". Provide values for these in variableValues.").data := by
  refine ⟨?_, sortNames_perm _, sortNames_sorted _, rfl⟩
  simp only [importTemplateConstraints, hrn]
  rw [if_pos hne]

/-- Witness for C3 at a template whose only constraint mentions the
unsupplied variable X. -/
theorem c3_unreplaced_fails_witness :
    dictGet roleNameKey c3vv = some ("db-admin".data) ∧
    findUnreplaced (substituteVariables [tokenCon] c3vv) ≠ [] ∧
    importTemplateConstraints none c3vv [tokenCon] sampleTokens .unconfigured (fun _ => true)
        sampleUuid sampleNow =
      (.error (.general (unreplacedMsg (findUnreplaced (substituteVariables [tokenCon] c3vv)))),
        []) :=
  ⟨by decide, by decide,
    (c3_unreplaced_fails none c3vv [tokenCon] sampleTokens .unconfigured (fun _ => true)
      sampleUuid sampleNow ("db-admin".data) (by decide) (by decide)).1⟩

/-- C8. The role-existence check never raises and never blocks: it returns
true when the registry is unconfigured or the lookup raises, and the import
result and the written items do not depend on the registry at all (an
explicit not-found only produces a logged warning). -/
theorem c8_soft_role_check :
    (∀ g : PyStr, validateRoleExists RegistryState.unconfigured g = true) ∧
    (∀ (f : PyStr → LookupResult) (g : PyStr), f g = LookupResult.err →
      validateRoleExists (RegistryState.configured f) g = true) ∧
    (∀ (templateName : Option PyStr) (varValues : List (PyStr × PyStr))
        (constraints : List ConstraintDict) (tokens : List PyStr)
        (reg reg' : RegistryState) (writeOk : Nat → Bool) (uuidGen : Nat → PyStr) (now : PyStr),
      importTemplateConstraints templateName varValues constraints tokens reg writeOk uuidGen now =
        importTemplateConstraints templateName varValues constraints tokens reg' writeOk uuidGen now) := by
  refine ⟨fun g => rfl, fun f g h => by simp [validateRoleExists, h], ?_⟩
  intro templateName varValues constraints tokens reg reg' writeOk uuidGen now
  rfl

/-- Witness for C8: an erroring lookup yields true, and an import against a
registry that reports not-found equals the import against an unconfigured
registry. -/
theorem c8_soft_role_check_witness :
    validateRoleExists RegistryState.unconfigured ("grp".data) = true ∧
    validateRoleExists (RegistryState.configured (fun _ => LookupResult.err)) ("grp".data) = true ∧
    importTemplateConstraints none c3vv [sampleCon] sampleTokens
        (RegistryState.configured (fun _ => LookupResult.notFound)) (fun _ => true)
        sampleUuid sampleNow =
      importTemplateConstraints none c3vv [sampleCon] sampleTokens RegistryState.unconfigured
        (fun _ => true) sampleUuid sampleNow :=
  ⟨c8_soft_role_check.1 _, c8_soft_role_check.2.1 _ _ rfl,
    c8_soft_role_check.2.2 _ _ _ _ _ _ _ _ _⟩

theorem buildPerms_groupIds (roleName : PyStr) (uuidGen : Nat → PyStr) :
    ∀ (ps : List TemplatePermission) (k : Nat),
      ∀ gp ∈ (buildPerms roleName uuidGen ps k).1, gp.groupId = some roleName := by
  intro ps
  induction ps with
  | nil => intro k gp hgp; simp [buildPerms] at hgp
  | cons p rest ih =>
    intro k gp hgp
    simp only [buildPerms] at hgp
    rcases List.mem_cons.mp hgp with rfl | h'
    · rfl
    · exact ih (k + 1) gp h'

theorem transform_mem_groupPermissions (cd : ConstraintData) (now : PyStr) :
    ∀ item ∈ transformToDenormalized cd now, item.groupPermissions = cd.groupPermissions := by
  intro item hmem
  rw [transformToDenormalized_eq] at hmem
  split at hmem
  · obtain rfl := List.mem_singleton.mp hmem
    rfl
  · rcases List.mem_append.mp hmem with h' | h'
    · obtain ⟨g, -, rfl⟩ := List.mem_map.mp h'
      rfl
    · obtain ⟨u, -, rfl⟩ := List.mem_map.mp h'
      rfl

theorem writeLoop_store_groupIds (roleName : PyStr) (tokens : List PyStr) (writeOk : Nat → Bool)
    (uuidGen : Nat → PyStr) (now : PyStr) :
    ∀ (cs : List ConstraintDict) (i k : Nat) (ids : List PyStr) (store : List DenormItem),
      (∀ item ∈ store, ∀ gp ∈ item.groupPermissions, gp.groupId = some roleName) →
      ∀ item ∈ (writeLoop roleName tokens writeOk uuidGen now cs i k ids store).2,
        ∀ gp ∈ item.groupPermissions, gp.groupId = some roleName := by
  intro cs
  induction cs with
  | nil => intro i k ids store hstore item hitem; exact hstore item hitem
  | cons c rest ih =>
    intro i k ids store hstore item hitem
    simp only [writeLoop] at hitem
    by_cases hw : writeOk i = true
    · rw [if_pos hw] at hitem
      refine ih (i + 1) _ _ _ ?_ item hitem
      intro it hit
      rcases List.mem_append.mp hit with h' | h'
      · exact hstore it h'
      · intro gp hgp
        rw [transform_mem_groupPermissions _ now it h'] at hgp
        exact buildPerms_groupIds roleName uuidGen c.groupPermissions (k + 1) gp hgp
    · rw [if_neg hw] at hitem
      exact hstore item hitem

/-- C9. Every group permission of every denormalized item written by a
template import has its groupId equal to the single ROLE_NAME value of
that import: the fan-out never binds two different role names. -/
theorem c9_role_scoped (templateName : Option PyStr) (varValues : List (PyStr × PyStr))
    (constraints : List ConstraintDict) (tokens : List PyStr) (registry : RegistryState)
    (writeOk : Nat → Bool) (uuidGen : Nat → PyStr) (now : PyStr) (roleName : PyStr)
    (hrn : dictGet roleNameKey varValues = some roleName) :
    ∀ item ∈ (importTemplateConstraints templateName varValues constraints tokens registry
        writeOk uuidGen now).2,
      ∀ gp ∈ item.groupPermissions, gp.groupId = some roleName := by
  intro item hitem gp hgp
  simp only [importTemplateConstraints, hrn] at hitem
  by_cases hu : findUnreplaced (substituteVariables constraints varValues) ≠ []
  · rw [if_pos hu] at hitem
    simp at hitem
  · rw [if_neg hu] at hitem
    rcases hw : writeLoop roleName tokens writeOk uuidGen now
        (substituteVariables constraints varValues) 0 0 [] [] with ⟨res, store⟩
    rw [hw] at hitem
    have hstore : item ∈ store := by
      cases res with
      | ok ids => simpa using hitem
      | error e => simpa using hitem
    have hall := writeLoop_store_groupIds roleName tokens writeOk uuidGen now
      (substituteVariables constraints varValues) 0 0 [] []
      (by intro it hit; simp at hit)
    rw [hw] at hall
    exact hall item hstore gp hgp

/-- Witness for C9 at a concrete successful import. -/
theorem c9_role_scoped_witness :
    dictGet roleNameKey c3vv = some ("db-admin".data) ∧
    ∀ item ∈ (importTemplateConstraints none c3vv [sampleCon] sampleTokens .unconfigured
        (fun _ => true) sampleUuid sampleNow).2,
      ∀ gp ∈ item.groupPermissions, gp.groupId = some ("db-admin".data) :=
  ⟨by decide,
    c9_role_scoped none c3vv [sampleCon] sampleTokens .unconfigured (fun _ => true)
      sampleUuid sampleNow ("db-admin".data) (by decide)⟩

/-- C7. A template whose variableValues omits ROLE_NAME is rejected by
request validation with the error naming ROLE_NAME, the handler returns a
validation response, and no item is written. -/
theorem c7_role_name_required (aot aops ap apt : List PyStr) (onc : PyStr → Option PyStr)
    (req : ImportRequest) (tokens : List PyStr) (registry : RegistryState)
    (writeOk : Nat → Bool) (uuidGen : Nat → PyStr) (now : PyStr)
    (h : dictGet roleNameKey req.variableValues = none) :
    validateTemplateImport aot aops ap apt onc req = .error roleNameRequiredMsg ∧
    handleImport aot aops ap apt onc req tokens registry writeOk uuidGen now =
      (.validationResp roleNameRequiredMsg, []) ∧
    SubStr roleNameKey roleNameRequiredMsg := by
  have hval : validateTemplateImport aot aops ap apt onc req = .error roleNameRequiredMsg := by
    simp [validateTemplateImport, h]
  exact ⟨hval, by simp [handleImport, hval], (hasSub_iff _ _).mp (by decide)⟩

/-- Witness for C7 at a concrete request lacking ROLE_NAME. -/
theorem c7_role_name_required_witness :
    dictGet roleNameKey c7req.variableValues = none ∧
    handleImport sampleAot sampleAops sampleAp sampleApt sampleOnc c7req sampleTokens
        .unconfigured (fun _ => true) sampleUuid sampleNow =
      (.validationResp roleNameRequiredMsg, []) :=
  ⟨by decide,
    (c7_role_name_required sampleAot sampleAops sampleAp sampleApt sampleOnc c7req sampleTokens
      .unconfigured (fun _ => true) sampleUuid sampleNow (by decide)).2.1⟩

theorem writeLoop_fail (roleName : PyStr) (tokens : List PyStr) (writeOk : Nat → Bool)
    (uuidGen : Nat → PyStr) (now : PyStr) :
    ∀ (N : Nat) (cs : List ConstraintDict) (i k : Nat) (ids : List PyStr)
      (store : List DenormItem),
      N < cs.length →
      (∀ j, j < N → writeOk (i + j) = true) →
      writeOk (i + N) = false →
      writeLoop roleName tokens writeOk uuidGen now cs i k ids store =
        (.error .storage, store ++ prefixStore roleName tokens uuidGen now cs N k) := by
  intro N
  induction N with
  | zero =>
    intro cs i k ids store hlen _hok hfail
    cases cs with
    | nil => simp at hlen
    | cons c rest =>
      simp only [writeLoop]
      rw [if_neg (by simp only [Nat.add_zero] at hfail; simp [hfail])]
      simp [prefixStore]
  | succ N ih =>
    intro cs i k ids store hlen hok hfail
    cases cs with
    | nil => simp at hlen
    | cons c rest =>
      simp only [writeLoop]
      rw [if_pos (by simpa using hok 0 (by omega))]
      rw [ih rest (i + 1) _ _ _ (by simp only [List.length_cons] at hlen; omega)
        (fun j hj => by
          have h2 := hok (j + 1) (by omega)
          rwa [show i + (j + 1) = i + 1 + j by omega] at h2)
        (by rwa [show i + 1 + N = i + (N + 1) by omega])]
      simp only [prefixStore]
      rw [List.append_assoc]

/-- C6 (amended). If the batch write for the N-th constraint fails after
the first N succeed, the storage exception reaches `lambda_handler`'s
generic handler and an internal-error response is returned (not the
general-error response), no summary is returned, and the denormalized items
of the first N constraints remain in the store with no compensating
delete. -/
theorem c6_storage_failure_amended (aot aops ap apt : List PyStr) (onc : PyStr → Option PyStr)
    (req : ImportRequest) (tokens : List PyStr) (registry : RegistryState)
    (writeOk : Nat → Bool) (uuidGen : Nat → PyStr) (now : PyStr)
    (vv : List (PyStr × PyStr)) (roleName : PyStr) (N : Nat)
    (hval : validateTemplateImport aot aops ap apt onc req = .ok vv)
    (hrn : dictGet roleNameKey vv = some roleName)
    (hu : findUnreplaced (substituteVariables req.constraints vv) = [])
    (hN : N < req.constraints.length)
    (hok : ∀ j, j < N → writeOk j = true)
    (hfail : writeOk N = false) :
    handleImport aot aops ap apt onc req tokens registry writeOk uuidGen now =
      (.internalResp,
        prefixStore roleName tokens uuidGen now (substituteVariables req.constraints vv) N 0) := by
  simp only [handleImport, hval]
  simp only [importTemplateConstraints, hrn]
  rw [if_neg (by simp [hu])]
  rw [writeLoop_fail roleName tokens writeOk uuidGen now N
    (substituteVariables req.constraints vv) 0 0 [] []
    (by simpa [substituteVariables] using hN)
    (fun j hj => by simpa using hok j hj)
    (by simpa using hfail)]
  simp

/-- Counterexample for C6 as stated: at a concrete two-constraint template
whose second batch write fails, the handler does not surface the
general-error response (it surfaces the internal-error response), while the
first constraint's denormalized item remains persisted. -/
theorem c6_storage_failure_cex :
    isGeneralResp (handleImport sampleAot sampleAops sampleAp sampleApt sampleOnc c6req
        sampleTokens .unconfigured c6writeOk sampleUuid sampleNow).1 = false ∧
    (handleImport sampleAot sampleAops sampleAp sampleApt sampleOnc c6req
        sampleTokens .unconfigured c6writeOk sampleUuid sampleNow).1 = HandlerResp.internalResp ∧
    (handleImport sampleAot sampleAops sampleAp sampleApt sampleOnc c6req
        sampleTokens .unconfigured c6writeOk sampleUuid sampleNow).2 =
      prefixStore ("db-admin".data) sampleTokens sampleUuid sampleNow
        (substituteVariables [sampleCon, sampleCon] c3vv) 1 0 := by
  refine ⟨?_, ?_, ?_⟩ <;> decide

/-- Witness for the amended C6 at the same concrete input with N = 1. -/
theorem c6_storage_failure_amended_witness :
    validateTemplateImport sampleAot sampleAops sampleAp sampleApt sampleOnc c6req = .ok c3vv ∧
    handleImport sampleAot sampleAops sampleAp sampleApt sampleOnc c6req sampleTokens
        .unconfigured c6writeOk sampleUuid sampleNow =
      (.internalResp,
        prefixStore ("db-admin".data) sampleTokens sampleUuid sampleNow
          (substituteVariables c6req.constraints c3vv) 1 0) :=
  ⟨by rfl,
    c6_storage_failure_amended sampleAot sampleAops sampleAp sampleApt sampleOnc c6req
      sampleTokens .unconfigured c6writeOk sampleUuid sampleNow c3vv ("db-admin".data) 1
      (by rfl) (by decide) (by decide) (by decide)
      (fun j hj => by
        have hj0 : j = 0 := by omega
        subst hj0
        decide)
      (by decide)⟩

theorem tokenWF_of_braceFree (keys : List PyStr) : ∀ s : PyStr, braceFree s → TokenWF keys s := by
  intro s
  induction s with
  | nil => intro _; exact .nil
  | cons c cs ih =>
    intro h
    exact .plain (h c (by simp)).1 (h c (by simp)).2 (ih (fun d hd => h d (by simp [hd])))

/-- Counterexample for C4 as stated: with variableValues iterated as
A ↦ `{{B}}` then B ↦ `x`, the occurrence of `{{B}}` introduced by replacing
`{{A}}` is re-scanned and replaced, so it is not present in the output even
though the claim says it survives regardless of whether B is a key. -/
theorem c4_nonrecursive_cex :
    ¬ (∀ (varValues : List (PyStr × PyStr)) (A B vA : PyStr),
        dictGet A varValues = some vA → SubStr (varPat B) vA →
        ∀ s : PyStr, SubStr (varPat A) s →
          SubStr (varPat B) (replaceInString varValues s)) := by
  intro h
  have h2 := h [(['A'], varPat ['B']), (['B'], ['x'])] ['A'] ['B'] (varPat ['B'])
    (by decide) ⟨[], [], by simp⟩ (varPat ['A']) ⟨[], [], by simp⟩
  have h3 := (hasSub_iff _ _).mpr h2
  exact absurd h3 (by decide)

/-- C4 (amended). Substitution never re-scans a substituted value for the
same variable or for names outside the mapping: if the value of A contains
the literal `{{B}}` and B is not a key of variableValues, then after
substitution every string that contained `{{A}}` contains `{{B}}` (only
keys iterated after A in the mapping order can consume an introduced
token).  The constraint-level substitution applies exactly this string
engine to each field. -/
theorem c4_nonrecursive_amended (varValues : List (PyStr × PyStr)) (A B vA : PyStr)
    (hkeys : ∀ nv ∈ varValues, wordName nv.1)
    (hB : wordName B)
    (hBnot : B ∉ varValues.map Prod.fst)
    (hget : dictGet A varValues = some vA)
    (hvA : SubStr (varPat B) vA) :
    (∀ s : PyStr, SubStr (varPat A) s → SubStr (varPat B) (replaceInString varValues s)) ∧
    (∀ c : ConstraintDict, (substConstraint varValues c).name = replaceInString varValues c.name) := by
  refine ⟨?_, fun c => rfl⟩
  intro s hs
  obtain ⟨pre, post, rfl, hpre⟩ := dictGet_split A vA varValues hget
  have hA : wordName A := hkeys (A, vA) (by simp)
  have h1 : SubStr (varPat A) (replaceInString pre s) := by
    apply subStr_replaceInString_of_not_key A hA pre s ?_ hs
    intro nv hnv
    exact ⟨hkeys nv (by simp [hnv]), hpre nv hnv⟩
  rw [replaceInString_append_split]
  show SubStr (varPat B) (replaceInString post (pyReplace (varPat A) vA (replaceInString pre s)))
  apply subStr_replaceInString_of_not_key B hB post _ ?_ ?_
  · intro nv hnv
    refine ⟨hkeys nv (by simp [hnv]), ?_⟩
    intro he
    apply hBnot
    rw [← he]
    exact List.mem_map_of_mem Prod.fst (by simp [hnv])
  · exact subStr_trans hvA (subStr_rep_pyReplace A vA _ h1)

/-- Witness for the amended C4: with the single mapping A ↦ `{{B}}`, the
substitution of `{{A}}` leaves `{{B}}` in the output. -/
theorem c4_nonrecursive_amended_witness :
    (∀ nv ∈ c4vars, wordName nv.1) ∧ wordName ['B'] ∧ ['B'] ∉ c4vars.map Prod.fst ∧
    dictGet ['A'] c4vars = some (varPat ['B']) ∧
    SubStr (varPat ['B']) (replaceInString c4vars (varPat ['A'])) := by
  refine ⟨?_, ⟨by decide, by decide⟩, by decide, by decide, ?_⟩
  · intro nv hnv
    obtain rfl := List.mem_singleton.mp hnv
    exact ⟨by decide, by decide⟩
  · refine (c4_nonrecursive_amended c4vars ['A'] ['B'] (varPat ['B']) ?_ ⟨by decide, by decide⟩
      (by decide) (by decide) ⟨[], [], by simp⟩).1 (varPat ['A']) ⟨[], [], by simp⟩
    intro nv hnv
    obtain rfl := List.mem_singleton.mp hnv
    exact ⟨by decide, by decide⟩

/-- Counterexample for C5 as stated: a template with no declared variables
(so every declared variable trivially has a value) whose constraint text
mentions `{{X}}` leaves X unreplaced after substitution. -/
theorem c5_completeness_cex :
    ¬ (∀ (decls : List VarDef) (cs : List ConstraintDict) (varValues : List (PyStr × PyStr)),
        (∀ d ∈ decls, d.name ∈ varValues.map Prod.fst) →
        findUnreplaced (substituteVariables cs varValues) = []) := by
  intro h
  have h2 := h [] [tokenCon] c3vv (by intro d hd; simp at hd)
  exact absurd h2 (by decide)

/-- C5 (amended). For all templates in which every `{{NAME}}` token of the
constraint text names a key of variableValues, braces occur only as part of
complete tokens, and the supplied values contain no brace characters, the
unreplaced-variable scan of the substituted constraints returns the empty
set. -/
theorem c5_completeness_amended (cs : List ConstraintDict) (varValues : List (PyStr × PyStr))
    (hvars : ∀ nv ∈ varValues, wordName nv.1 ∧ braceFree nv.2)
    (hcs : ∀ c ∈ cs, constraintWF (varValues.map Prod.fst) c) :
    findUnreplaced (substituteVariables cs varValues) = [] := by
  show (cs.map (substConstraint varValues)).foldl scanConstraint [] = []
  refine foldl_fix _ _ (fun x hx a => ?_) []
  obtain ⟨c, hcmem, rfl⟩ := List.mem_map.mp hx
  exact scanConstraint_subst varValues c hvars (hcs c hcmem) a

/-- Witness for the amended C5: the `{{ROLE_NAME}}-access` template
constraint is fully resolved by a mapping supplying ROLE_NAME. -/
theorem c5_completeness_amended_witness :
    (∀ nv ∈ c3vv, wordName nv.1 ∧ braceFree nv.2) ∧
    findUnreplaced (substituteVariables [wfCon] c3vv) = [] := by
  have hvars : ∀ nv ∈ c3vv, wordName nv.1 ∧ braceFree nv.2 := by
    intro nv hnv
    obtain rfl := List.mem_singleton.mp hnv
    exact ⟨⟨by decide, by decide⟩, by decide⟩
  refine ⟨hvars, ?_⟩
  apply c5_completeness_amended [wfCon] c3vv hvars
  intro c hc
  obtain rfl := List.mem_singleton.mp hc
  refine ⟨TokenWF.tok (by decide) (by decide) (by decide)
      (tokenWF_of_braceFree _ _ (by decide)),
    tokenWF_of_braceFree _ _ (by decide),
    tokenWF_of_braceFree _ _ (by decide), ?_, ?_, ?_⟩
  · intro cr hcr
    obtain rfl := List.mem_singleton.mp hcr
    exact ⟨tokenWF_of_braceFree _ _ (by decide), tokenWF_of_braceFree _ _ (by decide),
      tokenWF_of_braceFree _ _ (by decide)⟩
  · intro cr hcr
    simp [wfCon, sampleCon] at hcr
  · intro p hp
    obtain rfl := List.mem_singleton.mp hp
    exact ⟨tokenWF_of_braceFree _ _ (by decide), tokenWF_of_braceFree _ _ (by decide)⟩

end VamsTemplateImport
